import Mathlib

/-!
# type_q: fixed-capacity circular queues

A shallow embedding of the generic queue of `src/type_q.h` and `src/type_q.c`
(`gen_q_t`, `gen_q_in`, `gen_q_out`, `is_gen_q_full`, `is_gen_q_empty`,
`gen_q_clear`, `gen_q_len`, `gen_q_size`, `bind_gen_q`, `MAKE_GEN_Q`) and of the
typed queue that `DEFINE_TYPE_Q` generates (`name_in`, `name_out`, `name_q_empty`,
`name_q_full`, `name_q_reset`).

Modelling conventions:

* a pointer is an address, a mathematical integer (`Int`); pointer arithmetic
  is integer arithmetic in a flat address space (the one-before-the-buffer
  pointer `out - size` of `is_gen_q_full` is formed without wraparound);
* `uint32_t` values are naturals, arithmetic on them is reduced modulo `2^32`;
* the backing store is a bounded byte array at a base address; `memcpy` into or
  out of it faults (`none`) when the range leaves the array, and faults when the
  caller's record is shorter than the number of bytes copied;
* the caller's records (`void const *in`, `void *out`) are byte lists that do not
  alias the backing store.
-/

namespace TypeQ

/-- One byte of memory (`uint8_t`). -/
abbrev uint8_t := Fin 256

/-- The modulus of `uint32_t` arithmetic. -/
def UINT32_MOD : Nat := 4294967296

/-- The descriptor `struct gen_q_t`; `end_` and `in_` are the C fields `end` and `in`. -/
structure gen_q_t where
  /-- head of the buffer store -/
  buf : Int
  /-- address of first byte beyond buffer store -/
  end_ : Int
  /-- next in point in queue -/
  in_ : Int
  /-- next out point of queue -/
  out : Int
  /-- the size of the object in the queue -/
  size : Nat
  /-- the usable length (one less than allocated storage) -/
  len : Nat
deriving DecidableEq, Repr

/-- The caller's storage: `bytes.length` bytes starting at address `base`. -/
structure Storage where
  base : Int
  bytes : List uint8_t
deriving DecidableEq, Repr

/-- The `n` bytes of the store found at address `addr` (no bounds check). -/
def Storage.peek (m : Storage) (addr : Int) (n : Nat) : List uint8_t :=
  (m.bytes.drop (addr - m.base).toNat).take n

/-- Whether the `n` bytes at `addr` lie inside the store. -/
def Storage.inside (m : Storage) (addr : Int) (n : Nat) : Prop :=
  m.base ≤ addr ∧ addr + n ≤ m.base + m.bytes.length

instance (m : Storage) (addr : Int) (n : Nat) : Decidable (m.inside addr n) := by
  unfold Storage.inside; infer_instance

/-- `memcpy(dst, src, n)` with `dst` an address in the store and `src` a caller record. -/
def memcpy_to (m : Storage) (dst : Int) (src : List uint8_t) (n : Nat) : Option Storage :=
  if m.inside dst n ∧ n ≤ src.length then
    some { m with bytes := m.bytes.take (dst - m.base).toNat ++ src.take n
                            ++ m.bytes.drop ((dst - m.base).toNat + n) }
  else none

/-- `memcpy(dst, src, n)` with `src` an address in the store and `dst` a caller record:
the new content of the caller's record. -/
def memcpy_from (m : Storage) (dst : List uint8_t) (src : Int) (n : Nat) :
    Option (List uint8_t) :=
  if m.inside src n ∧ n ≤ dst.length then
    some (m.peek src n ++ dst.drop n)
  else none

/-- `static inline void gen_q_clear(gen_q_t *gen) { gen->out = gen->in;}` -/
def gen_q_clear (gen : gen_q_t) : gen_q_t :=
  { gen with out := gen.in_ }

/-- `static inline uint32_t gen_q_len(gen_q_t *gen) { return gen->len; }` -/
def gen_q_len (gen : gen_q_t) : Nat := gen.len

/-- `static inline uint32_t gen_q_size(gen_q_t *gen) { return gen->size; }` -/
def gen_q_size (gen : gen_q_t) : Nat := gen.size

/-- `static inline int is_gen_q_empty(gen_q_t *gen) {return gen->in == gen->out;}` -/
def is_gen_q_empty (gen : gen_q_t) : Int :=
  if gen.in_ = gen.out then 1 else 0

/-- The function `is_gen_q_full` of `type_q.c`. -/
def is_gen_q_full (gen : gen_q_t) : Int :=
  let prev := gen.out - gen.size
  let prev := if prev < gen.buf then gen.end_ - gen.size else prev
  if gen.in_ = prev then 1 else 0

/-- The function `gen_q_in` of `type_q.c`: return code, descriptor and store after the call. -/
def gen_q_in (gen : gen_q_t) (m : Storage) (src : List uint8_t) :
    Option (Int × gen_q_t × Storage) :=
  let next := gen.in_ + gen.size
  let next := if next = gen.end_ then gen.buf else next
  if next ≠ gen.out then
    match memcpy_to m gen.in_ src gen.size with
    | none => none
    | some m1 => some (0, { gen with in_ := next }, m1)
  else some (-1, gen, m)

/-- The function `gen_q_out` of `type_q.c`: return code, descriptor, store and the caller's
destination record after the call (the store is only read). -/
def gen_q_out (gen : gen_q_t) (m : Storage) (dst : List uint8_t) :
    Option (Int × gen_q_t × Storage × List uint8_t) :=
  if gen.in_ = gen.out then some (-1, gen, m, dst)
  else
    let next := gen.out + gen.size
    let next := if next = gen.end_ then gen.buf else next
    match memcpy_from m dst gen.out gen.size with
    | none => none
    | some dst1 => some (0, { gen with out := next }, m, dst1)

/-- The function `bind_gen_q` of `type_q.h` on a store at address `store`; the `uint32_t`
division traps (`none`) when `obj_size` is zero. -/
def bind_gen_q (store : Int) (store_size obj_size : Nat) : Option gen_q_t :=
  if obj_size = 0 then none
  else some
    { buf := store
      len := (store_size / obj_size + UINT32_MOD - 1) % UINT32_MOD
      end_ := store + (((store_size / obj_size) * obj_size) % UINT32_MOD : Nat)
      size := obj_size
      in_ := store
      out := store }

/-- The descriptor initialised by `MAKE_GEN_Q(name, type, qlen)`: `store` is the address of
`nameStore`, an array of `qlen+1` objects, and `sizeof_type` is `sizeof(type)`. -/
def MAKE_GEN_Q (store : Int) (sizeof_type qlen : Nat) : gen_q_t :=
  { size := sizeof_type % UINT32_MOD
    len := qlen % UINT32_MOD
    buf := store
    in_ := store
    out := store
    end_ := store + ((qlen + 1) * sizeof_type : Nat) }

/-- The store `nameStore[qlen+1]` that `MAKE_GEN_Q` allocates, zero-initialised. -/
def MAKE_GEN_Q_store (store : Int) (sizeof_type qlen : Nat) : Storage :=
  { base := store, bytes := List.replicate ((qlen + 1) * sizeof_type) 0 }

/-! ## Well-formed states -/

/-- A well-formed descriptor: positive object size, `len + 1` slots between `buf` and `end`,
and both pointers on a slot boundary inside `[buf, end)`; the two `uint32_t` fields in range. -/
def WF (q : gen_q_t) : Prop :=
  1 ≤ q.size ∧ q.size < UINT32_MOD ∧ q.len < UINT32_MOD ∧
  q.end_ = q.buf + ((q.len + 1) * q.size : Nat) ∧
  (q.buf ≤ q.in_ ∧ q.in_ < q.end_ ∧ (q.in_ - q.buf) % (q.size : Int) = 0) ∧
  (q.buf ≤ q.out ∧ q.out < q.end_ ∧ (q.out - q.buf) % (q.size : Int) = 0)

instance (q : gen_q_t) : Decidable (WF q) := by
  unfold WF; infer_instance

/-- The descriptor is bound to the store: the store starts at `buf` and holds all the slots. -/
def Bound (q : gen_q_t) (m : Storage) : Prop :=
  m.base = q.buf ∧ q.end_ ≤ m.base + m.bytes.length

instance (q : gen_q_t) (m : Storage) : Decidable (Bound q m) := by
  unfold Bound; infer_instance

/-- Number of elements queued: `((in - out) / size) mod (len + 1)`. -/
def count (q : gen_q_t) : Nat :=
  (((q.in_ - q.out) / (q.size : Int)) % ((q.len : Int) + 1)).toNat

/-- Address of the `k`-th slot after `p`, with wraparound. -/
def slot_after (q : gen_q_t) (p : Int) (k : Nat) : Int :=
  q.buf + (((p - q.buf) / (q.size : Int) + k) % ((q.len : Int) + 1)) * q.size

/-- The abstraction: the records stored in the slots from `out` up to (not including) `in`,
with wraparound, oldest first. -/
def abs (q : gen_q_t) (m : Storage) : List (List uint8_t) :=
  (List.range (count q)).map (fun k => m.peek (slot_after q q.out k) q.size)

/-! ## Calls and call sequences -/

/-- One call on the generic queue. -/
inductive Op where
  /-- `gen_q_in(&q, x)` -/
  | enq (x : List uint8_t)
  /-- `gen_q_out(&q, dst)` -/
  | deq (dst : List uint8_t)
  /-- `is_gen_q_empty(&q)` -/
  | empty
  /-- `is_gen_q_full(&q)` -/
  | full
  /-- `gen_q_clear(&q)` -/
  | clear
deriving DecidableEq, Repr

/-- What the caller observes of one call: the value returned (`0` for the `void` call) and,
for `gen_q_out`, the destination record after the call. -/
structure Obs where
  rc : Int
  dst : List uint8_t
deriving DecidableEq, Repr

/-- The caller's record of the call has exactly `size` bytes. -/
def Op.fits (size : Nat) : Op → Prop
  | .enq x => x.length = size
  | .deq dst => dst.length = size
  | _ => True

instance (size : Nat) (op : Op) : Decidable (op.fits size) := by
  cases op <;> unfold Op.fits <;> infer_instance

/-- Whether the call is `gen_q_clear`. -/
def Op.discards : Op → Prop
  | .clear => True
  | _ => False

instance (op : Op) : Decidable op.discards := by
  cases op <;> unfold Op.discards <;> infer_instance

/-- One call: what the caller observes, and the descriptor and store after it. -/
def step (q : gen_q_t) (m : Storage) : Op → Option (Obs × gen_q_t × Storage)
  | .enq x => (gen_q_in q m x).map (fun r => (⟨r.1, []⟩, r.2.1, r.2.2))
  | .deq dst => (gen_q_out q m dst).map (fun r => (⟨r.1, r.2.2.2⟩, r.2.1, r.2.2.1))
  | .empty => some (⟨is_gen_q_empty q, []⟩, q, m)
  | .full => some (⟨is_gen_q_full q, []⟩, q, m)
  | .clear => some (⟨0, []⟩, gen_q_clear q, m)

/-- A sequence of calls, in order. -/
def run (q : gen_q_t) (m : Storage) : List Op → Option (List Obs × gen_q_t × Storage)
  | [] => some ([], q, m)
  | op :: ops =>
    match step q m op with
    | none => none
    | some (r, q1, m1) =>
      match run q1 m1 ops with
      | none => none
      | some (rs, q2, m2) => some (r :: rs, q2, m2)

/-- The records of the `gen_q_in` calls that returned `0`, in call order. -/
def enqueued : List Op → List Obs → List (List uint8_t)
  | op :: ops, r :: rs =>
    (match op with
      | .enq x => if r.rc = 0 then [x] else []
      | _ => []) ++ enqueued ops rs
  | _, _ => []

/-- The records delivered by the `gen_q_out` calls that returned `0`, in call order. -/
def dequeued : List Op → List Obs → List (List uint8_t)
  | op :: ops, r :: rs =>
    (match op with
      | .deq _ => if r.rc = 0 then [r.dst] else []
      | _ => []) ++ dequeued ops rs
  | _, _ => []

/-- `gen_q_in` of each record in turn with `is_gen_q_full` after each call: the pairs of
both results, and the final descriptor and store. -/
def fill (q : gen_q_t) (m : Storage) :
    List (List uint8_t) → Option (List (Int × Int) × gen_q_t × Storage)
  | [] => some ([], q, m)
  | x :: xs =>
    match gen_q_in q m x with
    | none => none
    | some (rc, q1, m1) =>
      match fill q1 m1 xs with
      | none => none
      | some (rs, q2, m2) => some ((rc, is_gen_q_full q1) :: rs, q2, m2)

/-! ## Slot indices (used in the proofs) -/

/-- The descriptor has `in` at slot `i` and `out` at slot `o`. -/
def AtSlots (q : gen_q_t) (i o : Nat) : Prop :=
  1 ≤ q.size ∧ i ≤ q.len ∧ o ≤ q.len ∧
  q.end_ = q.buf + ((q.len + 1) * q.size : Nat) ∧
  q.in_ = q.buf + (i * q.size : Nat) ∧ q.out = q.buf + (o * q.size : Nat)

/-- Index of the slot after slot `i` in a ring of `n + 1` slots. -/
def nxt (n i : Nat) : Nat := if i = n then 0 else i + 1

/-- The store with the slot at offset `a` overwritten by `x`. -/
def Storage.poke (m : Storage) (a : Nat) (x : List uint8_t) : Storage :=
  { m with bytes := m.bytes.take a ++ x ++ m.bytes.drop (a + x.length) }

/-! ## The spec's wording of `is_full` -/

/-- The slot immediately behind `p` in the spec's words: subtract one element, wrap to
`end - size` if that underflows below `buf`. -/
def slot_behind (q : gen_q_t) (p : Int) : Int :=
  if p - q.size < q.buf then q.end_ - q.size else p - q.size

/-! ## Concrete states -/

/-- A store of three two-byte slots at address 100. -/
def store3 : Storage := { base := 100, bytes := [0, 0, 0, 0, 0, 0] }

/-- A queue of usable length 2 over `store3`, empty, with both pointers at the last slot. -/
def ring3_last : gen_q_t :=
  { buf := 100, end_ := 106, in_ := 104, out := 104, size := 2, len := 2 }

/-- A queue of usable length 2 over `store3` holding one record: `in` one slot past `out`. -/
def ring3_one : gen_q_t :=
  { buf := 100, end_ := 106, in_ := 102, out := 100, size := 2, len := 2 }

/-- A queue of usable length 2 over `store3` holding two records: full, `in` at the last slot. -/
def ring3_full : gen_q_t :=
  { buf := 100, end_ := 106, in_ := 104, out := 100, size := 2, len := 2 }

/-! ## The bounded first-in first-out list the queue implements -/

/-- One call on a list of at most `L` records, following the spec's `enqueue`, `dequeue`,
`is_empty`, `is_full` and emptying: what the caller observes and the list after the call. -/
def fifo_step (L : Nat) (s : List (List uint8_t)) : Op → Obs × List (List uint8_t)
  | .enq x => if s.length < L then (⟨0, []⟩, s ++ [x]) else (⟨-1, []⟩, s)
  | .deq dst =>
    match s with
    | [] => (⟨-1, dst⟩, [])
    | r :: t => (⟨0, r⟩, t)
  | .empty => (⟨if s.length = 0 then 1 else 0, []⟩, s)
  | .full => (⟨if s.length = L then 1 else 0, []⟩, s)
  | .clear => (⟨0, []⟩, [])

/-- A sequence of calls on a list of at most `L` records: the observations, in order. -/
def fifo_run (L : Nat) (s : List (List uint8_t)) : List Op → List Obs
  | [] => []
  | op :: ops => (fifo_step L s op).1 :: fifo_run L (fifo_step L s op).2 ops

/-- The fields of the descriptor declared `const` are the same in `q1` as in `q`. -/
def same_consts (q q1 : gen_q_t) : Prop :=
  q1.buf = q.buf ∧ q1.end_ = q.end_ ∧ q1.size = q.size ∧ q1.len = q.len

instance (q q1 : gen_q_t) : Decidable (same_consts q q1) := by
  unfold same_consts; infer_instance

/-- The pointer predicate of the data model: `buf <= in < end`, `buf <= out < end`, and
`in - buf` and `out - buf` exact multiples of `size`. -/
def PtrInv (q : gen_q_t) : Prop :=
  (q.buf ≤ q.in_ ∧ q.in_ < q.end_) ∧ (q.buf ≤ q.out ∧ q.out < q.end_) ∧
  (q.in_ - q.buf) % (q.size : Int) = 0 ∧ (q.out - q.buf) % (q.size : Int) = 0

instance (q : gen_q_t) : Decidable (PtrInv q) := by
  unfold PtrInv; infer_instance

/-- `gen_q_out` into each destination record in turn with `is_gen_q_empty` after each call:
the return code, the destination record after the call and the value of `is_gen_q_empty`, and
the final descriptor. -/
def drain (q : gen_q_t) (m : Storage) :
    List (List uint8_t) → Option (List (Int × List uint8_t × Int) × gen_q_t)
  | [] => some ([], q)
  | dst :: dsts =>
    match gen_q_out q m dst with
    | none => none
    | some (rc, q1, m1, dst1) =>
      match drain q1 m1 dsts with
      | none => none
      | some (rs, q2) => some ((rc, dst1, is_gen_q_empty q1) :: rs, q2)

/-! ## The typed queue of `DEFINE_TYPE_Q` -/

/-- The object `name` of type `name_q_t` without its function pointers. The pointers are
`type *`; they are kept as byte addresses, so that `p + 1` is `p + sizeof(type)`. -/
structure type_q_t where
  buf : Int
  end_ : Int
  in_ : Int
  out : Int
deriving DecidableEq, Repr

/-- The function `name_in` generated by `DEFINE_TYPE_Q`. -/
def name_in (sizeof_type : Nat) (name : type_q_t) (m : Storage) (src : List uint8_t) :
    Option (Int × type_q_t × Storage) :=
  let next := name.in_ + sizeof_type
  let next := if next = name.end_ then name.buf else next
  if next ≠ name.out then
    match memcpy_to m name.in_ src sizeof_type with
    | none => none
    | some m1 => some (0, { name with in_ := next }, m1)
  else some (-1, name, m)

/-- The function `name_out` generated by `DEFINE_TYPE_Q`: the copy reads at `out`, `out` is
incremented, then wrapped. -/
def name_out (sizeof_type : Nat) (name : type_q_t) (m : Storage) (dst : List uint8_t) :
    Option (Int × type_q_t × Storage × List uint8_t) :=
  if name.in_ = name.out then some (-1, name, m, dst)
  else
    match memcpy_from m dst name.out sizeof_type with
    | none => none
    | some dst1 =>
      let out1 := name.out + sizeof_type
      let out2 := if out1 = name.end_ then name.buf else out1
      some (0, { name with out := out2 }, m, dst1)

/-- The function `name_q_empty` generated by `DEFINE_TYPE_Q`. -/
def name_q_empty (name : type_q_t) : Int :=
  if name.in_ = name.out then 1 else 0

/-- The function `name_q_full` generated by `DEFINE_TYPE_Q`. -/
def name_q_full (sizeof_type : Nat) (name : type_q_t) : Int :=
  let prev := name.out - sizeof_type
  let prev := if prev < name.buf then name.end_ - sizeof_type else prev
  if name.in_ = prev then 1 else 0

/-- The function `name_q_reset` generated by `DEFINE_TYPE_Q`; `store` is the address of
`nameStore`. -/
def name_q_reset (store : Int) (name : type_q_t) : type_q_t :=
  { name with in_ := store, out := store }

/-- The object `name` as `DEFINE_TYPE_Q(name, type, len)` initialises it; `store` is the
address of `nameStore`, an array of `len+1` objects. -/
def DEFINE_TYPE_Q (store : Int) (sizeof_type len : Nat) : type_q_t :=
  { buf := store
    end_ := store + ((len + 1) * sizeof_type : Nat)
    in_ := store
    out := store }

/-- The store `nameStore[len+1]` that `DEFINE_TYPE_Q` allocates, zero-initialised. -/
def DEFINE_TYPE_Q_store (store : Int) (sizeof_type len : Nat) : Storage :=
  { base := store, bytes := List.replicate ((len + 1) * sizeof_type) 0 }

/-- One call through the typed handle: `in_q`, `out_q`, `q_empty`, `q_full`, `reset`; the
store `m` is `nameStore`. -/
def type_step (sizeof_type : Nat) (name : type_q_t) (m : Storage) :
    Op → Option (Obs × type_q_t × Storage)
  | .enq x => (name_in sizeof_type name m x).map (fun r => (⟨r.1, []⟩, r.2.1, r.2.2))
  | .deq dst =>
    (name_out sizeof_type name m dst).map (fun r => (⟨r.1, r.2.2.2⟩, r.2.1, r.2.2.1))
  | .empty => some (⟨name_q_empty name, []⟩, name, m)
  | .full => some (⟨name_q_full sizeof_type name, []⟩, name, m)
  | .clear => some (⟨0, []⟩, name_q_reset m.base name, m)

/-- A sequence of calls through the typed handle, in order. -/
def type_run (sizeof_type : Nat) (name : type_q_t) (m : Storage) :
    List Op → Option (List Obs × type_q_t × Storage)
  | [] => some ([], name, m)
  | op :: ops =>
    match type_step sizeof_type name m op with
    | none => none
    | some (r, t1, m1) =>
      match type_run sizeof_type t1 m1 ops with
      | none => none
      | some (rs, t2, m2) => some (r :: rs, t2, m2)

/-- The generic descriptor with the pointers of the typed object (used in the proofs). -/
def as_gen (sizeof_type len : Nat) (name : type_q_t) : gen_q_t :=
  { buf := name.buf, end_ := name.end_, in_ := name.in_, out := name.out,
    size := sizeof_type, len := len }

/-- The typed object with the pointers of a generic descriptor (used in the proofs). -/
def as_typed (q : gen_q_t) : type_q_t :=
  { buf := q.buf, end_ := q.end_, in_ := q.in_, out := q.out }

/-- The record `{.i1 = i1, .c1 = c1}` of the tests' `test_t` (`int i1; char c1;`) as eight
bytes: a little-endian four-byte `int`, the `char`, three bytes of padding. -/
def test_t (i1 c1 : uint8_t) : List uint8_t := [i1, 0, 0, 0, c1, 0, 0, 0]

/-- A store of six eight-byte slots at address 1000. -/
def store6 : Storage := { base := 1000, bytes := List.replicate 48 0 }

/-- A queue of usable length 5 over `store6`, empty, with both pointers one slot past `buf`. -/
def ring6_second : gen_q_t :=
  { buf := 1000, end_ := 1048, in_ := 1008, out := 1008, size := 8, len := 5 }

/-! ## Lists and arithmetic -/

/-- Overwriting `x.length` elements of `l` from offset `a` by `x` keeps the length. -/
theorem splice_length {α : Type} (l x : List α) (a : Nat) (h : a + x.length ≤ l.length) :
    (l.take a ++ x ++ l.drop (a + x.length)).length = l.length := by
  simp only [List.length_append, List.length_take, List.length_drop]
  omega

theorem splice_peek_same {α : Type} (l x : List α) (a : Nat) (h : a + x.length ≤ l.length) :
    ((l.take a ++ x ++ l.drop (a + x.length)).drop a).take x.length = x := by
  have h1 : (l.take a).length = a := by simp; omega
  rw [List.append_assoc, List.drop_append_of_le_length (by omega)]
  rw [List.drop_of_length_le (by omega), List.nil_append, List.take_left]

theorem splice_peek_other {α : Type} (l x : List α) (a c n : Nat) (h : a + x.length ≤ l.length)
    (hd : c + n ≤ a ∨ a + x.length ≤ c) :
    ((l.take a ++ x ++ l.drop (a + x.length)).drop c).take n = (l.drop c).take n := by
  apply List.ext_getElem?
  intro k
  simp only [List.getElem?_take, List.getElem?_drop]
  by_cases hk : k < n
  · simp only [hk, if_true]
    rcases hd with hd | hd
    · rw [List.append_assoc, List.getElem?_append_left (by simp; omega)]
      rw [List.getElem?_take]; simp; omega
    · rw [List.getElem?_append_right (by simp; omega)]
      rw [List.getElem?_drop]
      simp only [List.length_append, List.length_take]
      congr 1
      omega
  · simp [hk]

theorem mod_wrap (j N : Nat) (h : j < 2 * N) : j % N = if j < N then j else j - N := by
  split
  · exact Nat.mod_eq_of_lt ‹_›
  · rw [Nat.mod_eq_sub_mod (by omega), Nat.mod_eq_of_lt (by omega)]

/-! ## Descriptors by slot index -/

theorem aligned_slot (b p : Int) (s n : Nat) (hs : 1 ≤ s) (h1 : b ≤ p)
    (h2 : p < b + ((n + 1) * s : Nat)) (h3 : (p - b) % (s : Int) = 0) :
    ∃ i : Nat, i ≤ n ∧ p = b + (i * s : Nat) := by
  have hdiv : (s : Int) ∣ (p - b) := Int.dvd_of_emod_eq_zero h3
  obtain ⟨d, hd⟩ := hdiv
  have hspos : (0 : Int) < s := by exact_mod_cast hs
  have hd0 : 0 ≤ d := by
    by_contra hneg
    push_neg at hneg
    have : (s : Int) * d < 0 := mul_neg_of_pos_of_neg hspos hneg
    omega
  refine ⟨d.toNat, ?_, ?_⟩
  · have hlt : (s : Int) * d < (s : Int) * ((n : Int) + 1) := by
      have : p - b < ((n + 1) * s : Nat) := by omega
      push_cast at this
      rw [← hd]; linarith
    have := lt_of_mul_lt_mul_left hlt (le_of_lt hspos)
    omega
  · have : ((d.toNat : Nat) : Int) = d := Int.toNat_of_nonneg hd0
    push_cast
    rw [this, mul_comm, ← hd]; ring

theorem WF.atSlots {q : gen_q_t} (h : WF q) : ∃ i o, AtSlots q i o := by
  obtain ⟨hs, _, _, he, ⟨hi1, hi2, hi3⟩, ⟨ho1, ho2, ho3⟩⟩ := h
  rw [he] at hi2 ho2
  obtain ⟨i, hi, hin⟩ := aligned_slot q.buf q.in_ q.size q.len hs hi1 hi2 hi3
  obtain ⟨o, ho, hout⟩ := aligned_slot q.buf q.out q.size q.len hs ho1 ho2 ho3
  exact ⟨i, o, hs, hi, ho, he, hin, hout⟩

theorem slot_addr_inj (b : Int) (s i j : Nat) (hs : 1 ≤ s) :
    b + (i * s : Nat) = b + (j * s : Nat) ↔ i = j := by
  constructor
  · intro h
    have h1 : ((i * s : Nat) : Int) = (j * s : Nat) := by omega
    have h2 : i * s = j * s := by exact_mod_cast h1
    exact Nat.eq_of_mul_eq_mul_right (by omega) h2
  · rintro rfl; rfl

theorem AtSlots.next_in {q : gen_q_t} {i o : Nat} (h : AtSlots q i o) :
    (if q.in_ + q.size = q.end_ then q.buf else q.in_ + q.size)
      = q.buf + (nxt q.len i * q.size : Nat) := by
  obtain ⟨hs, hi, ho, he, hin, hout⟩ := h
  have key : q.in_ + q.size = q.buf + ((i + 1) * q.size : Nat) := by
    rw [hin]; push_cast; ring
  rw [key, he]
  unfold nxt
  by_cases hc : i = q.len
  · simp [hc]
  · have : ¬ (i + 1 = q.len + 1) := by omega
    simp only [slot_addr_inj _ _ _ _ hs, this, hc, if_false]

theorem AtSlots.next_out {q : gen_q_t} {i o : Nat} (h : AtSlots q i o) :
    (if q.out + q.size = q.end_ then q.buf else q.out + q.size)
      = q.buf + (nxt q.len o * q.size : Nat) := by
  obtain ⟨hs, hi, ho, he, hin, hout⟩ := h
  have key : q.out + q.size = q.buf + ((o + 1) * q.size : Nat) := by
    rw [hout]; push_cast; ring
  rw [key, he]
  unfold nxt
  by_cases hc : o = q.len
  · simp [hc]
  · have : ¬ (o + 1 = q.len + 1) := by omega
    simp only [slot_addr_inj _ _ _ _ hs, this, hc, if_false]

theorem AtSlots.count_eq {q : gen_q_t} {i o : Nat} (h : AtSlots q i o) :
    count q = if o ≤ i then i - o else i + (q.len + 1) - o := by
  obtain ⟨hs, hi, ho, he, hin, hout⟩ := h
  unfold count
  have hspos : (q.size : Int) ≠ 0 := by omega
  have key : (q.in_ - q.out) / (q.size : Int) = (i : Int) - o := by
    rw [hin, hout]; push_cast
    have : q.buf + (i : Int) * q.size - (q.buf + (o : Int) * q.size) = ((i : Int) - o) * q.size := by ring
    rw [this, Int.mul_ediv_cancel _ hspos]
  rw [key]
  split
  · rw [Int.emod_eq_of_lt (by omega) (by omega)]; omega
  · have : ((i : Int) - o) % ((q.len : Int) + 1) = (i : Int) - o + (q.len + 1) := by
      rw [← Int.add_emod_self, Int.emod_eq_of_lt (by omega) (by omega)]
    rw [this]; omega

theorem AtSlots.count_le {q : gen_q_t} {i o : Nat} (h : AtSlots q i o) : count q ≤ q.len := by
  rw [h.count_eq]; obtain ⟨hs, hi, ho, _⟩ := h; split <;> omega

theorem AtSlots.slot_after_out {q : gen_q_t} {i o : Nat} (h : AtSlots q i o) (k : Nat) :
    slot_after q q.out k = q.buf + (((o + k) % (q.len + 1)) * q.size : Nat) := by
  obtain ⟨hs, hi, ho, he, hin, hout⟩ := h
  unfold slot_after
  have hspos : (q.size : Int) ≠ 0 := by omega
  have key : (q.out - q.buf) / (q.size : Int) = (o : Int) := by
    rw [hout]; push_cast
    have : q.buf + (o : Int) * q.size - q.buf = (o : Int) * q.size := by ring
    rw [this, Int.mul_ediv_cancel _ hspos]
  rw [key]; push_cast; rfl

theorem peek_slot (m : Storage) (b : Int) (j s : Nat) (hb : m.base = b) :
    m.peek (b + (j * s : Nat)) s = (m.bytes.drop (j * s)).take s := by
  unfold Storage.peek
  have : (b + ((j * s : Nat) : Int) - m.base).toNat = j * s := by rw [hb]; omega
  rw [this]

theorem AtSlots.slot_le {q : gen_q_t} {i o : Nat} (h : AtSlots q i o) (m : Storage)
    (hb : Bound q m) (j : Nat) (hj : j ≤ q.len) : j * q.size + q.size ≤ m.bytes.length := by
  obtain ⟨hs, hi, ho, he, hin, hout⟩ := h
  obtain ⟨hb1, hb2⟩ := hb
  have h1 : (j + 1) * q.size ≤ (q.len + 1) * q.size := Nat.mul_le_mul_right _ (by omega)
  have h2 : (j + 1) * q.size = j * q.size + q.size := by ring
  rw [he, hb1] at hb2
  omega

theorem slots_disjoint (i j s : Nat) (h : i ≠ j) : j * s + s ≤ i * s ∨ i * s + s ≤ j * s := by
  rcases Nat.lt_or_gt_of_ne h with h | h
  · right
    have : (i + 1) * s ≤ j * s := Nat.mul_le_mul_right _ h
    have h2 : (i + 1) * s = i * s + s := by ring
    omega
  · left
    have : (j + 1) * s ≤ i * s := Nat.mul_le_mul_right _ h
    have h2 : (j + 1) * s = j * s + s := by ring
    omega

theorem AtSlots.full_iff {q : gen_q_t} {i o : Nat} (h : AtSlots q i o) :
    nxt q.len i = o ↔ count q = q.len := by
  rw [h.count_eq]; obtain ⟨hs, hi, ho, _⟩ := h
  unfold nxt; split <;> split <;> omega

theorem AtSlots.empty_iff {q : gen_q_t} {i o : Nat} (h : AtSlots q i o) :
    i = o ↔ count q = 0 := by
  rw [h.count_eq]; obtain ⟨hs, hi, ho, _⟩ := h
  split <;> omega

theorem AtSlots.in_eq_out_iff {q : gen_q_t} {i o : Nat} (h : AtSlots q i o) :
    q.in_ = q.out ↔ i = o := by
  obtain ⟨hs, hi, ho, he, hin, hout⟩ := h
  rw [hin, hout, slot_addr_inj _ _ _ _ hs]

theorem AtSlots.wf {q : gen_q_t} {i o : Nat} (h : AtSlots q i o)
    (h1 : q.size < UINT32_MOD) (h2 : q.len < UINT32_MOD) : WF q := by
  obtain ⟨hs, hi, ho, he, hin, hout⟩ := h
  have hi' : i * q.size < (q.len + 1) * q.size :=
    Nat.mul_lt_mul_of_pos_right (by omega) (by omega)
  have ho' : o * q.size < (q.len + 1) * q.size :=
    Nat.mul_lt_mul_of_pos_right (by omega) (by omega)
  refine ⟨hs, h1, h2, he, ⟨?_, ?_, ?_⟩, ⟨?_, ?_, ?_⟩⟩
  · omega
  · omega
  · rw [hin]; push_cast; simp
  · omega
  · omega
  · rw [hout]; push_cast; simp

theorem nxt_le (n i : Nat) (h : i ≤ n) : nxt n i ≤ n := by
  unfold nxt; split <;> omega

/-! ## One call -/

theorem AtSlots.memcpy_to_in {q : gen_q_t} {i o : Nat} (h : AtSlots q i o) (m : Storage)
    (hb : Bound q m) (x : List uint8_t) (hx : x.length = q.size) :
    memcpy_to m q.in_ x q.size = some (m.poke (i * q.size) x) := by
  have hle := h.slot_le m hb i h.2.1
  obtain ⟨hs, hi, ho, he, hin, hout⟩ := h
  obtain ⟨hb1, hb2⟩ := hb
  unfold memcpy_to Storage.inside Storage.poke
  have hoff : (q.in_ - m.base).toNat = i * q.size := by rw [hin, hb1]; omega
  have hc : (m.base ≤ q.in_ ∧ q.in_ + (q.size : Int) ≤ m.base + (m.bytes.length : Int))
      ∧ q.size ≤ x.length := by
    refine ⟨⟨?_, ?_⟩, ?_⟩ <;> omega
  rw [if_pos hc, hoff, ← hx, List.take_length]

theorem AtSlots.gen_q_in_ok {q : gen_q_t} {i o : Nat} (h : AtSlots q i o) (m : Storage)
    (hb : Bound q m) (x : List uint8_t) (hx : x.length = q.size) (hc : count q < q.len) :
    gen_q_in q m x
      = some (0, { q with in_ := q.buf + (nxt q.len i * q.size : Nat) }, m.poke (i * q.size) x) := by
  have hne : nxt q.len i ≠ o := fun e => by have := h.full_iff.1 e; omega
  unfold gen_q_in
  simp only [h.next_in]
  have : q.buf + ((nxt q.len i * q.size : Nat) : Int) ≠ q.out := by
    rw [h.2.2.2.2.2, Ne, slot_addr_inj _ _ _ _ h.1]; exact hne
  rw [if_pos this, h.memcpy_to_in m hb x hx]

theorem AtSlots.gen_q_in_full {q : gen_q_t} {i o : Nat} (h : AtSlots q i o) (m : Storage)
    (x : List uint8_t) (hc : count q = q.len) :
    gen_q_in q m x = some (-1, q, m) := by
  have he : nxt q.len i = o := h.full_iff.2 hc
  unfold gen_q_in
  simp only [h.next_in]
  have : ¬ (q.buf + ((nxt q.len i * q.size : Nat) : Int) ≠ q.out) := by
    rw [h.2.2.2.2.2, Ne, slot_addr_inj _ _ _ _ h.1, not_not]; exact he
  rw [if_neg this]

theorem AtSlots.after_in {q : gen_q_t} {i o : Nat} (h : AtSlots q i o) :
    AtSlots { q with in_ := q.buf + (nxt q.len i * q.size : Nat) } (nxt q.len i) o := by
  obtain ⟨hs, hi, ho, he, hin, hout⟩ := h
  exact ⟨hs, nxt_le _ _ hi, ho, he, rfl, hout⟩

theorem AtSlots.after_out {q : gen_q_t} {i o : Nat} (h : AtSlots q i o) :
    AtSlots { q with out := q.buf + (nxt q.len o * q.size : Nat) } i (nxt q.len o) := by
  obtain ⟨hs, hi, ho, he, hin, hout⟩ := h
  exact ⟨hs, hi, nxt_le _ _ ho, he, hin, rfl⟩

theorem Bound.poke {q : gen_q_t} {m : Storage} (hb : Bound q m) (q1 : gen_q_t)
    (h1 : q1.buf = q.buf) (h2 : q1.end_ = q.end_) (a : Nat) (x : List uint8_t)
    (ha : a + x.length ≤ m.bytes.length) : Bound q1 (m.poke a x) := by
  obtain ⟨hb1, hb2⟩ := hb
  unfold Bound Storage.poke
  simp only [splice_length _ _ _ ha, h1, h2]
  exact ⟨hb1, hb2⟩

theorem AtSlots.abs_eq {q : gen_q_t} {i o : Nat} (h : AtSlots q i o) (m : Storage)
    (hb : Bound q m) :
    abs q m = (List.range (count q)).map
      (fun k => (m.bytes.drop (((o + k) % (q.len + 1)) * q.size)).take q.size) := by
  unfold abs
  apply List.map_congr_left
  intro k _
  rw [h.slot_after_out, peek_slot m q.buf _ _ hb.1]

theorem AtSlots.abs_after_in {q : gen_q_t} {i o : Nat} (h : AtSlots q i o) (m : Storage)
    (hb : Bound q m) (x : List uint8_t) (hx : x.length = q.size) (hc : count q < q.len) :
    abs { q with in_ := q.buf + (nxt q.len i * q.size : Nat) } (m.poke (i * q.size) x)
      = abs q m ++ [x] := by
  have hle := h.slot_le m hb i h.2.1
  have h1 := h.after_in
  have hb1 : Bound { q with in_ := q.buf + (nxt q.len i * q.size : Nat) } (m.poke (i * q.size) x) :=
    hb.poke _ rfl rfl _ _ (by omega)
  have hcnt : count { q with in_ := q.buf + (nxt q.len i * q.size : Nat) } = count q + 1 := by
    have hcq := h.count_eq
    rw [h1.count_eq]
    rw [hcq] at hc ⊢
    obtain ⟨hs, hi, ho, _⟩ := h
    dsimp only
    unfold nxt
    split_ifs at hc ⊢ <;> omega
  rw [h1.abs_eq _ hb1, h.abs_eq m hb, hcnt, List.range_succ, List.map_append]
  simp only []
  have hcq := h.count_eq
  obtain ⟨hs, hi, ho, _⟩ := h
  congr 1
  · apply List.map_congr_left
    intro k hk
    rw [List.mem_range] at hk
    unfold Storage.poke
    simp only []
    apply splice_peek_other _ _ _ _ _ (by omega)
    rw [hx]
    apply slots_disjoint
    rw [mod_wrap _ _ (by omega)]
    split at hcq <;> split <;> omega
  · simp only [List.map_cons, List.map_nil, List.cons.injEq, and_true]
    have : (o + count q) % (q.len + 1) = i := by
      rw [mod_wrap _ _ (by omega)]
      split at hcq <;> split <;> omega
    rw [this]
    unfold Storage.poke
    simp only []
    rw [← hx]
    exact splice_peek_same m.bytes x (i * x.length) (by rw [hx]; omega)

theorem AtSlots.memcpy_from_out {q : gen_q_t} {i o : Nat} (h : AtSlots q i o) (m : Storage)
    (hb : Bound q m) (dst : List uint8_t) (hd : dst.length = q.size) :
    memcpy_from m dst q.out q.size = some ((m.bytes.drop (o * q.size)).take q.size) := by
  have hle := h.slot_le m hb o h.2.2.1
  obtain ⟨hs, hi, ho, he, hin, hout⟩ := h
  obtain ⟨hb1, hb2⟩ := hb
  unfold memcpy_from Storage.inside
  have hc : (m.base ≤ q.out ∧ q.out + (q.size : Int) ≤ m.base + (m.bytes.length : Int))
      ∧ q.size ≤ dst.length := by
    refine ⟨⟨?_, ?_⟩, ?_⟩ <;> omega
  have hdrop : dst.drop q.size = [] := List.drop_of_length_le (by omega)
  rw [if_pos hc, hout, peek_slot m q.buf _ _ hb1, hdrop, List.append_nil]

theorem AtSlots.gen_q_out_ok {q : gen_q_t} {i o : Nat} (h : AtSlots q i o) (m : Storage)
    (hb : Bound q m) (dst : List uint8_t) (hd : dst.length = q.size) (hc : 0 < count q) :
    gen_q_out q m dst
      = some (0, { q with out := q.buf + (nxt q.len o * q.size : Nat) }, m,
          (m.bytes.drop (o * q.size)).take q.size) := by
  have hne : ¬ (q.in_ = q.out) := fun e => by
    have := h.empty_iff.1 (h.in_eq_out_iff.1 e); omega
  unfold gen_q_out
  simp only [h.next_out]
  rw [if_neg hne, h.memcpy_from_out m hb dst hd]

theorem AtSlots.gen_q_out_empty {q : gen_q_t} {i o : Nat} (h : AtSlots q i o) (m : Storage)
    (dst : List uint8_t) (hc : count q = 0) :
    gen_q_out q m dst = some (-1, q, m, dst) := by
  have he : q.in_ = q.out := h.in_eq_out_iff.2 (h.empty_iff.2 hc)
  unfold gen_q_out
  rw [if_pos he]

theorem AtSlots.count_after_out {q : gen_q_t} {i o : Nat} (h : AtSlots q i o)
    (hc : 0 < count q) :
    count { q with out := q.buf + (nxt q.len o * q.size : Nat) } + 1 = count q := by
  have hcq := h.count_eq
  rw [h.after_out.count_eq]
  rw [hcq] at hc ⊢
  obtain ⟨hs, hi, ho, _⟩ := h
  dsimp only
  unfold nxt
  split_ifs at hc ⊢ <;> omega

theorem AtSlots.count_after_in {q : gen_q_t} {i o : Nat} (h : AtSlots q i o)
    (hc : count q < q.len) :
    count { q with in_ := q.buf + (nxt q.len i * q.size : Nat) } = count q + 1 := by
  have hcq := h.count_eq
  rw [h.after_in.count_eq]
  rw [hcq] at hc ⊢
  obtain ⟨hs, hi, ho, _⟩ := h
  dsimp only
  unfold nxt
  split_ifs at hc ⊢ <;> omega

theorem nxt_add_mod (n o k : Nat) (ho : o ≤ n) :
    (nxt n o + k) % (n + 1) = (o + (k + 1)) % (n + 1) := by
  unfold nxt
  split
  · subst o
    have : n + (k + 1) = k + (n + 1) := by omega
    rw [this, Nat.add_mod_right, Nat.zero_add]
  · congr 1; omega

theorem AtSlots.abs_after_out {q : gen_q_t} {i o : Nat} (h : AtSlots q i o) (m : Storage)
    (hb : Bound q m) (hc : 0 < count q) :
    abs q m = (m.bytes.drop (o * q.size)).take q.size
      :: abs { q with out := q.buf + (nxt q.len o * q.size : Nat) } m := by
  have hb1 : Bound { q with out := q.buf + (nxt q.len o * q.size : Nat) } m := hb
  have hcnt := h.count_after_out hc
  rw [h.after_out.abs_eq m hb1, h.abs_eq m hb, ← hcnt, List.range_succ_eq_map, List.map_cons,
    List.map_map]
  dsimp only
  congr 1
  · rw [Nat.add_zero, Nat.mod_eq_of_lt (by have := h.2.2.1; omega)]
  · apply List.map_congr_left
    intro k _
    simp only [Function.comp, Nat.succ_eq_add_one]
    rw [nxt_add_mod _ _ _ h.2.2.1]

theorem abs_length (q : gen_q_t) (m : Storage) : (abs q m).length = count q := by
  simp [abs]

theorem WF.count_le_len {q : gen_q_t} (hw : WF q) : count q ≤ q.len := by
  obtain ⟨i, o, h⟩ := hw.atSlots
  exact h.count_le

theorem WF.empty_iff_count {q : gen_q_t} (hw : WF q) : q.in_ = q.out ↔ count q = 0 := by
  obtain ⟨i, o, h⟩ := hw.atSlots
  rw [h.in_eq_out_iff, h.empty_iff]

/-- A `gen_q_in` into a queue holding fewer than `len` records. -/
theorem gen_q_in_step (q : gen_q_t) (m : Storage) (x : List uint8_t) (hw : WF q)
    (hb : Bound q m) (hx : x.length = q.size) (hc : count q < q.len) :
    ∃ q1 m1, gen_q_in q m x = some (0, q1, m1) ∧ WF q1 ∧ Bound q1 m1 ∧
      (q1.buf = q.buf ∧ q1.end_ = q.end_ ∧ q1.out = q.out ∧ q1.size = q.size ∧ q1.len = q.len) ∧
      count q1 = count q + 1 ∧ abs q1 m1 = abs q m ++ [x] := by
  obtain ⟨i, o, h⟩ := hw.atSlots
  have hle := h.slot_le m hb i h.2.1
  refine ⟨_, _, h.gen_q_in_ok m hb x hx hc, h.after_in.wf hw.2.1 hw.2.2.1,
    hb.poke _ rfl rfl _ _ (by omega), ⟨rfl, rfl, rfl, rfl, rfl⟩, h.count_after_in hc,
    h.abs_after_in m hb x hx hc⟩

/-- A `gen_q_in` into a queue holding `len` records. -/
theorem gen_q_in_reject (q : gen_q_t) (m : Storage) (x : List uint8_t) (hw : WF q)
    (hc : count q = q.len) : gen_q_in q m x = some (-1, q, m) := by
  obtain ⟨i, o, h⟩ := hw.atSlots
  exact h.gen_q_in_full m x hc

/-- A `gen_q_out` from a queue holding at least one record. -/
theorem gen_q_out_step (q : gen_q_t) (m : Storage) (dst : List uint8_t) (hw : WF q)
    (hb : Bound q m) (hd : dst.length = q.size) (hc : 0 < count q) :
    ∃ q1 r, gen_q_out q m dst = some (0, q1, m, r) ∧ WF q1 ∧ Bound q1 m ∧
      (q1.buf = q.buf ∧ q1.end_ = q.end_ ∧ q1.in_ = q.in_ ∧ q1.size = q.size ∧ q1.len = q.len) ∧
      count q1 + 1 = count q ∧ abs q m = r :: abs q1 m := by
  obtain ⟨i, o, h⟩ := hw.atSlots
  exact ⟨_, _, h.gen_q_out_ok m hb dst hd hc, h.after_out.wf hw.2.1 hw.2.2.1, hb,
    ⟨rfl, rfl, rfl, rfl, rfl⟩, h.count_after_out hc, h.abs_after_out m hb hc⟩

/-- A `gen_q_out` from a queue holding no record. -/
theorem gen_q_out_reject (q : gen_q_t) (m : Storage) (dst : List uint8_t) (hw : WF q)
    (hc : count q = 0) : gen_q_out q m dst = some (-1, q, m, dst) := by
  obtain ⟨i, o, h⟩ := hw.atSlots
  exact h.gen_q_out_empty m dst hc

/-- Calls other than `gen_q_clear` keep the records in first-in first-out order. -/
theorem run_fifo (ops : List Op) : ∀ (q : gen_q_t) (m : Storage), WF q → Bound q m →
    (∀ op ∈ ops, op.fits q.size ∧ ¬ op.discards) →
    ∃ rs q1 m1, run q m ops = some (rs, q1, m1) ∧ WF q1 ∧ Bound q1 m1 ∧
      abs q m ++ enqueued ops rs = dequeued ops rs ++ abs q1 m1 := by
  induction ops with
  | nil =>
    intro q m hw hb _
    exact ⟨[], q, m, rfl, hw, hb, by simp [enqueued, dequeued]⟩
  | cons op ops ih =>
    intro q m hw hb hops
    have hop := hops op (List.mem_cons_self _ _)
    have hrest : ∀ q1 : gen_q_t, q1.size = q.size →
        ∀ op1 ∈ ops, op1.fits q1.size ∧ ¬ op1.discards := by
      intro q1 hs op1 hmem
      rw [hs]; exact hops op1 (List.mem_cons_of_mem _ hmem)
    cases op with
    | enq x =>
      have hx : x.length = q.size := hop.1
      by_cases hc : count q < q.len
      · obtain ⟨q1, m1, hin, hw1, hb1, hfr, _, habs⟩ := gen_q_in_step q m x hw hb hx hc
        obtain ⟨rs, q2, m2, hrun, hw2, hb2, heq⟩ := ih q1 m1 hw1 hb1 (hrest q1 hfr.2.2.2.1)
        refine ⟨⟨0, []⟩ :: rs, q2, m2, ?_, hw2, hb2, ?_⟩
        · simp [run, step, hin, hrun]
        · simp only [enqueued, dequeued, if_true, List.nil_append]
          rw [← heq, habs]; simp
      · have hfull : count q = q.len := by have := hw.count_le_len; omega
        have hin := gen_q_in_reject q m x hw hfull
        obtain ⟨rs, q2, m2, hrun, hw2, hb2, heq⟩ := ih q m hw hb (hrest q rfl)
        refine ⟨⟨-1, []⟩ :: rs, q2, m2, ?_, hw2, hb2, ?_⟩
        · simp [run, step, hin, hrun]
        · simp only [enqueued, dequeued, List.nil_append]
          simpa using heq
    | deq dst =>
      have hd : dst.length = q.size := hop.1
      by_cases hc : 0 < count q
      · obtain ⟨q1, r, hout, hw1, hb1, hfr, _, habs⟩ := gen_q_out_step q m dst hw hb hd hc
        obtain ⟨rs, q2, m2, hrun, hw2, hb2, heq⟩ := ih q1 m hw1 hb1 (hrest q1 hfr.2.2.2.1)
        refine ⟨⟨0, r⟩ :: rs, q2, m2, ?_, hw2, hb2, ?_⟩
        · simp [run, step, hout, hrun]
        · simp only [enqueued, dequeued, if_true, List.nil_append]
          rw [habs, List.cons_append, heq]; simp
      · have hempty : count q = 0 := by omega
        have hout := gen_q_out_reject q m dst hw hempty
        obtain ⟨rs, q2, m2, hrun, hw2, hb2, heq⟩ := ih q m hw hb (hrest q rfl)
        refine ⟨⟨-1, dst⟩ :: rs, q2, m2, ?_, hw2, hb2, ?_⟩
        · simp [run, step, hout, hrun]
        · simp only [enqueued, dequeued, List.nil_append]
          simpa using heq
    | empty =>
      obtain ⟨rs, q2, m2, hrun, hw2, hb2, heq⟩ := ih q m hw hb (hrest q rfl)
      refine ⟨⟨is_gen_q_empty q, []⟩ :: rs, q2, m2, ?_, hw2, hb2, ?_⟩
      · simp [run, step, hrun]
      · simpa [enqueued, dequeued] using heq
    | full =>
      obtain ⟨rs, q2, m2, hrun, hw2, hb2, heq⟩ := ih q m hw hb (hrest q rfl)
      refine ⟨⟨is_gen_q_full q, []⟩ :: rs, q2, m2, ?_, hw2, hb2, ?_⟩
      · simp [run, step, hrun]
      · simpa [enqueued, dequeued] using heq
    | clear => exact absurd trivial hop.2

theorem AtSlots.is_gen_q_full_eq {q : gen_q_t} {i o : Nat} (h : AtSlots q i o) :
    is_gen_q_full q = if nxt q.len i = o then 1 else 0 := by
  obtain ⟨hs, hi, ho, he, hin, hout⟩ := h
  unfold is_gen_q_full
  dsimp only
  by_cases ho0 : o = 0
  · subst ho0
    have hlt : q.out - (q.size : Int) < q.buf := by rw [hout]; omega
    rw [if_pos hlt]
    have hprev : q.end_ - (q.size : Int) = q.buf + ((q.len * q.size : Nat) : Int) := by
      rw [he]; push_cast; ring
    rw [hprev, hin]
    have hiff : (i = q.len) ↔ (nxt q.len i = 0) := by unfold nxt; split <;> omega
    simp only [slot_addr_inj _ _ _ _ hs, hiff]
  · have hprev : q.out - (q.size : Int) = q.buf + (((o - 1) * q.size : Nat) : Int) := by
      rw [hout]
      have : o = (o - 1) + 1 := by omega
      conv_lhs => rw [this]
      push_cast; ring
    have hnlt : ¬ (q.out - (q.size : Int) < q.buf) := by rw [hprev]; omega
    rw [if_neg hnlt, hprev, hin]
    have hiff : (i = o - 1) ↔ (nxt q.len i = o) := by unfold nxt; split <;> omega
    simp only [slot_addr_inj _ _ _ _ hs, hiff]

theorem WF.is_gen_q_full_count {q : gen_q_t} (hw : WF q) :
    is_gen_q_full q = if count q = q.len then 1 else 0 := by
  obtain ⟨i, o, h⟩ := hw.atSlots
  rw [h.is_gen_q_full_eq]
  simp only [h.full_iff]

theorem WF.next_in_eq_out_iff {q : gen_q_t} (hw : WF q) :
    (if q.in_ + q.size = q.end_ then q.buf else q.in_ + q.size) = q.out ↔ count q = q.len := by
  obtain ⟨i, o, h⟩ := hw.atSlots
  rw [h.next_in, ← h.full_iff, h.2.2.2.2.2, slot_addr_inj _ _ _ _ h.1]

theorem fill_spec (xs : List (List uint8_t)) : ∀ (q : gen_q_t) (m : Storage), WF q → Bound q m →
    count q + xs.length ≤ q.len → (∀ x ∈ xs, x.length = q.size) →
    ∃ q1 m1, fill q m xs
        = some ((List.range xs.length).map
            (fun k => ((0 : Int), if count q + k + 1 = q.len then (1 : Int) else 0)), q1, m1) ∧
      WF q1 ∧ Bound q1 m1 ∧ count q1 = count q + xs.length ∧ q1.len = q.len ∧
      q1.size = q.size := by
  induction xs with
  | nil =>
    intro q m hw hb _ _
    exact ⟨q, m, rfl, hw, hb, rfl, rfl, rfl⟩
  | cons x xs ih =>
    intro q m hw hb hc hxs
    have hx : x.length = q.size := hxs x (List.mem_cons_self _ _)
    rw [List.length_cons] at hc
    obtain ⟨q1, m1, hin, hw1, hb1, hfr, hc1, _⟩ := gen_q_in_step q m x hw hb hx (by omega)
    have hxs1 : ∀ y ∈ xs, y.length = q1.size := by
      intro y hy; rw [hfr.2.2.2.1]; exact hxs y (List.mem_cons_of_mem _ hy)
    obtain ⟨q2, m2, hfill, hw2, hb2, hc2, hl2, hs2⟩ :=
      ih q1 m1 hw1 hb1 (by rw [hc1, hfr.2.2.2.2]; omega) hxs1
    refine ⟨q2, m2, ?_, hw2, hb2, ?_, ?_, ?_⟩
    · have hl : (List.range (x :: xs).length).map
            (fun k => ((0 : Int), if count q + k + 1 = q.len then (1 : Int) else 0))
          = (0, if count q + 1 = q.len then 1 else 0) :: (List.range xs.length).map
            (fun k => ((0 : Int), if count q + 1 + k + 1 = q.len then (1 : Int) else 0)) := by
        rw [List.length_cons, List.range_succ_eq_map, List.map_cons, List.map_map]
        congr 1
        apply List.map_congr_left
        intro k _
        simp only [Function.comp, Nat.succ_eq_add_one]
        have : count q + 1 + k + 1 = count q + (k + 1) + 1 := by omega
        rw [this]
      unfold fill
      rw [hin]
      dsimp only
      rw [hfill]
      dsimp only
      rw [hw1.is_gen_q_full_count, hc1, hfr.2.2.2.2, hl]
    · rw [hc2, hc1, List.length_cons]; omega
    · rw [hl2, hfr.2.2.2.2]
    · rw [hs2, hfr.2.2.2.1]

theorem range_map_last (n : Nat) :
    (List.range (n + 1)).map (fun k => ((0 : Int), if 0 + k + 1 = n + 1 then (1 : Int) else 0))
      = List.replicate n (0, 0) ++ [(0, 1)] := by
  rw [List.range_succ, List.map_append]
  congr 1
  · rw [List.eq_replicate_iff]
    refine ⟨by simp, ?_⟩
    intro b hb
    rw [List.mem_map] at hb
    obtain ⟨k, hk, rfl⟩ := hb
    rw [List.mem_range] at hk
    have : ¬ (0 + k + 1 = n + 1) := by omega
    rw [if_neg this]
  · simp

/-! ## Full test and binding -/

theorem WF.slot_behind_out {q : gen_q_t} (hw : WF q) :
    slot_after q (slot_behind q q.out) 1 = q.out := by
  obtain ⟨i, o, h⟩ := hw.atSlots
  obtain ⟨hs, hi, ho, he, hin, hout⟩ := h
  have hspos : (q.size : Int) ≠ 0 := by omega
  unfold slot_behind slot_after
  by_cases ho0 : o = 0
  · subst ho0
    have hlt : q.out - (q.size : Int) < q.buf := by rw [hout]; omega
    rw [if_pos hlt]
    have hprev : q.end_ - (q.size : Int) - q.buf = (q.len : Int) * q.size := by
      rw [he]; push_cast; ring
    rw [hprev, Int.mul_ediv_cancel _ hspos, hout]
    have : ((q.len : Int) + ((1 : Nat) : Int)) % ((q.len : Int) + 1) = 0 := by
      push_cast; exact Int.emod_self
    rw [this]; simp
  · have hprev : q.out - (q.size : Int) - q.buf = ((o - 1 : Nat) : Int) * q.size := by
      rw [hout]
      have : o = (o - 1) + 1 := by omega
      conv_lhs => rw [this]
      push_cast; ring
    have hnlt : ¬ (q.out - (q.size : Int) < q.buf) := by
      have h0 : (0 : Int) ≤ ((o - 1 : Nat) : Int) * q.size := by positivity
      omega
    rw [if_neg hnlt, hprev, Int.mul_ediv_cancel _ hspos, hout]
    have : (((o - 1 : Nat) : Int) + ((1 : Nat) : Int)) % ((q.len : Int) + 1) = (o : Int) := by
      have h1 : (((o - 1 : Nat) : Int) + ((1 : Nat) : Int)) = (o : Int) := by omega
      rw [h1]; exact Int.emod_eq_of_lt (by omega) (by omega)
    rw [this]; push_cast; ring

theorem bind_gen_q_eq (store : Int) (store_size obj_size : Nat) (h1 : 1 ≤ obj_size)
    (h2 : 2 * obj_size ≤ store_size) (h3 : store_size < UINT32_MOD) :
    bind_gen_q store store_size obj_size = some
      { buf := store
        end_ := store + ((store_size / obj_size * obj_size : Nat) : Int)
        in_ := store
        out := store
        size := obj_size
        len := store_size / obj_size - 1 } ∧
    2 ≤ store_size / obj_size ∧ store_size / obj_size * obj_size ≤ store_size := by
  have hd2 : 2 ≤ store_size / obj_size := (Nat.le_div_iff_mul_le (by omega)).2 h2
  have hle : store_size / obj_size * obj_size ≤ store_size := Nat.div_mul_le_self _ _
  have hdle : store_size / obj_size ≤ store_size := Nat.div_le_self _ _
  refine ⟨?_, hd2, hle⟩
  unfold bind_gen_q
  rw [if_neg (by omega)]
  have e1 : (store_size / obj_size + UINT32_MOD - 1) % UINT32_MOD = store_size / obj_size - 1 := by
    have : store_size / obj_size + UINT32_MOD - 1 = (store_size / obj_size - 1) + UINT32_MOD := by
      omega
    rw [this, Nat.add_mod_right, Nat.mod_eq_of_lt (by omega)]
  have e2 : (store_size / obj_size * obj_size) % UINT32_MOD = store_size / obj_size * obj_size :=
    Nat.mod_eq_of_lt (by omega)
  rw [e1, e2]

/-! ## Further lemmas: refinement of the bounded list, the typed queue, binding -/

theorem same_consts_refl (q : gen_q_t) : same_consts q q := ⟨rfl, rfl, rfl, rfl⟩

theorem same_consts_trans {q q1 q2 : gen_q_t} (h1 : same_consts q q1) (h2 : same_consts q1 q2) :
    same_consts q q2 :=
  ⟨h2.1.trans h1.1, h2.2.1.trans h1.2.1, h2.2.2.1.trans h1.2.2.1, h2.2.2.2.trans h1.2.2.2⟩

theorem WF.gen_q_clear_wf {q : gen_q_t} (hw : WF q) : WF (gen_q_clear q) := by
  obtain ⟨hs, h1, h2, he, hi, _⟩ := hw
  exact ⟨hs, h1, h2, he, hi, hi⟩

theorem count_gen_q_clear (q : gen_q_t) : count (gen_q_clear q) = 0 := by
  unfold count gen_q_clear
  simp

theorem abs_of_count_zero (q : gen_q_t) (m : Storage) (h : count q = 0) : abs q m = [] :=
  List.length_eq_zero.1 (by rw [abs_length]; exact h)

theorem WF.is_gen_q_empty_count {q : gen_q_t} (hw : WF q) :
    is_gen_q_empty q = if count q = 0 then 1 else 0 := by
  unfold is_gen_q_empty
  simp only [hw.empty_iff_count]

/-- One call on a well-formed descriptor bound to its store returns, observes what the
bounded list observes, and leaves a well-formed bound descriptor whose records are those of
the list. -/
theorem step_refines (q : gen_q_t) (m : Storage) (op : Op) (hw : WF q) (hb : Bound q m)
    (hop : op.fits q.size) :
    ∃ q1 m1, step q m op = some ((fifo_step q.len (abs q m) op).1, q1, m1) ∧
      WF q1 ∧ Bound q1 m1 ∧ same_consts q q1 ∧ m1.bytes.length = m.bytes.length ∧
      abs q1 m1 = (fifo_step q.len (abs q m) op).2 := by
  cases op with
  | enq x =>
    have hx : x.length = q.size := hop
    by_cases hc : count q < q.len
    · obtain ⟨q1, m1, hin, hw1, hb1, hfr, _, habs⟩ := gen_q_in_step q m x hw hb hx hc
      have hlen : m1.bytes.length = m.bytes.length := by
        obtain ⟨i, o, h⟩ := hw.atSlots
        have hle := h.slot_le m hb i h.2.1
        have e := h.gen_q_in_ok m hb x hx hc
        rw [hin] at e
        have e2 : m1 = m.poke (i * q.size) x := (Prod.mk.inj (Prod.mk.inj (Option.some.inj e)).2).2
        rw [e2]
        exact splice_length _ _ _ (by omega)
      refine ⟨q1, m1, ?_, hw1, hb1, ⟨hfr.1, hfr.2.1, hfr.2.2.2.1, hfr.2.2.2.2⟩, hlen, ?_⟩
      · simp [step, fifo_step, hin, abs_length, hc]
      · simp [fifo_step, abs_length, hc, habs]
    · have hfull : count q = q.len := by have := hw.count_le_len; omega
      have hin := gen_q_in_reject q m x hw hfull
      refine ⟨q, m, ?_, hw, hb, same_consts_refl q, rfl, ?_⟩
      · simp [step, fifo_step, hin, abs_length, hc]
      · simp [fifo_step, abs_length, hc]
  | deq dst =>
    have hd : dst.length = q.size := hop
    by_cases hc : 0 < count q
    · obtain ⟨q1, r, hout, hw1, hb1, hfr, _, habs⟩ := gen_q_out_step q m dst hw hb hd hc
      refine ⟨q1, m, ?_, hw1, hb1, ⟨hfr.1, hfr.2.1, hfr.2.2.2.1, hfr.2.2.2.2⟩, rfl, ?_⟩
      · simp [step, fifo_step, hout, habs]
      · simp [fifo_step, habs]
    · have hempty : count q = 0 := by omega
      have hout := gen_q_out_reject q m dst hw hempty
      have hnil := abs_of_count_zero q m hempty
      refine ⟨q, m, ?_, hw, hb, same_consts_refl q, rfl, ?_⟩
      · simp [step, fifo_step, hout, hnil]
      · simp [fifo_step, hnil]
  | empty =>
    refine ⟨q, m, ?_, hw, hb, same_consts_refl q, rfl, rfl⟩
    simp [step, fifo_step, hw.is_gen_q_empty_count, abs_length]
  | full =>
    refine ⟨q, m, ?_, hw, hb, same_consts_refl q, rfl, rfl⟩
    simp [step, fifo_step, hw.is_gen_q_full_count, abs_length]
  | clear =>
    refine ⟨gen_q_clear q, m, rfl, hw.gen_q_clear_wf, hb, ⟨rfl, rfl, rfl, rfl⟩, rfl, ?_⟩
    exact abs_of_count_zero _ m (count_gen_q_clear q)

/-- A sequence of calls on a well-formed descriptor bound to its store runs to the end and
observes what the bounded list observes. -/
theorem run_refines (ops : List Op) : ∀ (q : gen_q_t) (m : Storage), WF q → Bound q m →
    (∀ op ∈ ops, op.fits q.size) →
    ∃ q1 m1, run q m ops = some (fifo_run q.len (abs q m) ops, q1, m1) ∧
      WF q1 ∧ Bound q1 m1 ∧ same_consts q q1 ∧ m1.bytes.length = m.bytes.length := by
  induction ops with
  | nil =>
    intro q m hw hb _
    exact ⟨q, m, rfl, hw, hb, same_consts_refl q, rfl⟩
  | cons op ops ih =>
    intro q m hw hb hops
    obtain ⟨q1, m1, hstep, hw1, hb1, hc1, hl1, habs⟩ :=
      step_refines q m op hw hb (hops op (List.mem_cons_self _ _))
    have hrest : ∀ op1 ∈ ops, op1.fits q1.size := by
      intro op1 hmem
      rw [hc1.2.2.1]; exact hops op1 (List.mem_cons_of_mem _ hmem)
    obtain ⟨q2, m2, hrun, hw2, hb2, hc2, hl2⟩ := ih q1 m1 hw1 hb1 hrest
    refine ⟨q2, m2, ?_, hw2, hb2, same_consts_trans hc1 hc2, hl2.trans hl1⟩
    unfold run
    rw [hstep]
    dsimp only
    rw [hrun, habs, hc1.2.2.2]
    rfl

theorem as_gen_as_typed (q : gen_q_t) : as_gen q.size q.len (as_typed q) = q := rfl

theorem name_in_eq (sz N : Nat) (t : type_q_t) (m : Storage) (x : List uint8_t) :
    name_in sz t m x
      = (gen_q_in (as_gen sz N t) m x).map (fun r => (r.1, as_typed r.2.1, r.2.2)) := by
  unfold name_in gen_q_in as_gen
  dsimp only
  split_ifs <;> cases memcpy_to m t.in_ x sz <;> rfl

theorem name_out_eq (sz N : Nat) (t : type_q_t) (m : Storage) (dst : List uint8_t) :
    name_out sz t m dst
      = (gen_q_out (as_gen sz N t) m dst).map
          (fun r => (r.1, as_typed r.2.1, r.2.2.1, r.2.2.2)) := by
  unfold name_out gen_q_out as_gen
  dsimp only
  split_ifs <;> cases memcpy_from m dst t.out sz <;> rfl

theorem name_q_empty_eq (sz N : Nat) (t : type_q_t) :
    name_q_empty t = is_gen_q_empty (as_gen sz N t) := rfl

theorem name_q_full_eq (sz N : Nat) (t : type_q_t) :
    name_q_full sz t = is_gen_q_full (as_gen sz N t) := rfl

theorem type_step_eq (sz N : Nat) (t : type_q_t) (m : Storage) (op : Op)
    (hop : ¬ op.discards) :
    type_step sz t m op
      = (step (as_gen sz N t) m op).map (fun r => (r.1, as_typed r.2.1, r.2.2)) := by
  cases op with
  | enq x =>
    simp only [type_step, step, name_in_eq sz N]
    cases gen_q_in (as_gen sz N t) m x <;> rfl
  | deq dst =>
    simp only [type_step, step, name_out_eq sz N]
    cases gen_q_out (as_gen sz N t) m dst <;> rfl
  | empty => rfl
  | full => rfl
  | clear => exact absurd trivial hop

theorem WF.reset_wf {q : gen_q_t} (hw : WF q) : WF { q with in_ := q.buf, out := q.buf } := by
  obtain ⟨hs, h1, h2, he, ⟨hi1, hi2, _⟩, _⟩ := hw
  have hlt : q.buf < q.end_ := lt_of_le_of_lt hi1 hi2
  refine ⟨hs, h1, h2, he, ⟨le_refl _, hlt, ?_⟩, ⟨le_refl _, hlt, ?_⟩⟩ <;> simp

theorem count_of_in_eq_out (q : gen_q_t) (h : q.in_ = q.out) : count q = 0 := by
  unfold count
  rw [h]; simp

/-- One call through the typed handle observes what the bounded list observes. -/
theorem type_step_refines (sz N : Nat) (t : type_q_t) (m : Storage) (op : Op)
    (hw : WF (as_gen sz N t)) (hb : Bound (as_gen sz N t) m) (hop : op.fits sz) :
    ∃ t1 m1, type_step sz t m op
        = some ((fifo_step N (abs (as_gen sz N t) m) op).1, t1, m1) ∧
      WF (as_gen sz N t1) ∧ Bound (as_gen sz N t1) m1 ∧
      abs (as_gen sz N t1) m1 = (fifo_step N (abs (as_gen sz N t) m) op).2 := by
  by_cases hcl : op.discards
  · cases op with
    | clear =>
      have hbase : m.base = t.buf := hb.1
      have hw1 : WF (as_gen sz N (name_q_reset m.base t)) := by
        have := hw.reset_wf
        rw [hbase]; exact this
      refine ⟨name_q_reset m.base t, m, rfl, hw1, hb, ?_⟩
      exact abs_of_count_zero _ m (count_of_in_eq_out _ rfl)
    | enq x => exact absurd hcl (by simp [Op.discards])
    | deq dst => exact absurd hcl (by simp [Op.discards])
    | empty => exact absurd hcl (by simp [Op.discards])
    | full => exact absurd hcl (by simp [Op.discards])
  · obtain ⟨q1, m1, hstep, hw1, hb1, hc1, _, habs⟩ :=
      step_refines (as_gen sz N t) m op hw hb hop
    have hq1 : as_gen sz N (as_typed q1) = q1 := by
      have e := as_gen_as_typed q1
      have h1 : q1.size = sz := hc1.2.2.1
      have h2 : q1.len = N := hc1.2.2.2
      rw [h1, h2] at e
      exact e
    refine ⟨as_typed q1, m1, ?_, ?_, ?_, ?_⟩
    · rw [type_step_eq sz N t m op hcl, hstep]; rfl
    · rw [hq1]; exact hw1
    · rw [hq1]; exact hb1
    · rw [hq1]; exact habs

/-- A sequence of calls through the typed handle runs to the end and observes what the
bounded list observes. -/
theorem type_run_refines (sz N : Nat) (ops : List Op) : ∀ (t : type_q_t) (m : Storage),
    WF (as_gen sz N t) → Bound (as_gen sz N t) m → (∀ op ∈ ops, op.fits sz) →
    ∃ t1 m1, type_run sz t m ops = some (fifo_run N (abs (as_gen sz N t) m) ops, t1, m1) := by
  induction ops with
  | nil =>
    intro t m _ _ _
    exact ⟨t, m, rfl⟩
  | cons op ops ih =>
    intro t m hw hb hops
    obtain ⟨t1, m1, hstep, hw1, hb1, habs⟩ :=
      type_step_refines sz N t m op hw hb (hops op (List.mem_cons_self _ _))
    obtain ⟨t2, m2, hrun⟩ := ih t1 m1 hw1 hb1 (fun o ho => hops o (List.mem_cons_of_mem _ ho))
    refine ⟨t2, m2, ?_⟩
    unfold type_run
    rw [hstep]
    dsimp only
    rw [hrun, habs]
    rfl

theorem fill_abs (xs : List (List uint8_t)) : ∀ (q : gen_q_t) (m : Storage), WF q → Bound q m →
    count q + xs.length ≤ q.len → (∀ x ∈ xs, x.length = q.size) →
    ∀ rs q2 m2, fill q m xs = some (rs, q2, m2) → abs q2 m2 = abs q m ++ xs := by
  induction xs with
  | nil =>
    intro q m _ _ _ _ rs q2 m2 h
    have e : ([], q, m) = (rs, q2, m2) := Option.some.inj h
    obtain ⟨_, e2⟩ := Prod.mk.inj e
    obtain ⟨e3, e4⟩ := Prod.mk.inj e2
    rw [← e3, ← e4, List.append_nil]
  | cons x xs ih =>
    intro q m hw hb hc hxs rs q2 m2 h
    have hx : x.length = q.size := hxs x (List.mem_cons_self _ _)
    rw [List.length_cons] at hc
    obtain ⟨q1, m1, hin, hw1, hb1, hfr, hc1, habs⟩ := gen_q_in_step q m x hw hb hx (by omega)
    have hxs1 : ∀ y ∈ xs, y.length = q1.size := by
      intro y hy; rw [hfr.2.2.2.1]; exact hxs y (List.mem_cons_of_mem _ hy)
    unfold fill at h
    rw [hin] at h
    dsimp only at h
    cases hf : fill q1 m1 xs with
    | none => rw [hf] at h; exact absurd h (by simp)
    | some v =>
      obtain ⟨rs1, q3, m3⟩ := v
      rw [hf] at h
      dsimp only at h
      have e : ((0, is_gen_q_full q1) :: rs1, q3, m3) = (rs, q2, m2) := Option.some.inj h
      obtain ⟨_, e2⟩ := Prod.mk.inj e
      obtain ⟨e3, e4⟩ := Prod.mk.inj e2
      have := ih q1 m1 hw1 hb1 (by rw [hc1, hfr.2.2.2.2]; omega) hxs1 rs1 q3 m3 hf
      rw [← e3, ← e4, this, habs, List.append_assoc, List.singleton_append]

theorem drain_spec (m : Storage) (dsts : List (List uint8_t)) : ∀ (q : gen_q_t), WF q →
    Bound q m → dsts.length ≤ count q → (∀ d ∈ dsts, d.length = q.size) →
    ∃ rs q1, drain q m dsts = some (rs, q1) ∧ WF q1 ∧ Bound q1 m ∧
      count q1 + dsts.length = count q ∧
      rs.map (fun r => r.1) = List.replicate dsts.length 0 ∧
      rs.map (fun r => r.2.1) = (abs q m).take dsts.length ∧
      rs.map (fun r => r.2.2)
        = (List.range dsts.length).map (fun k => if count q = k + 1 then (1 : Int) else 0) := by
  induction dsts with
  | nil =>
    intro q hw hb _ _
    exact ⟨[], q, rfl, hw, hb, rfl, rfl, rfl, rfl⟩
  | cons dst dsts ih =>
    intro q hw hb hc hds
    have hd : dst.length = q.size := hds dst (List.mem_cons_self _ _)
    rw [List.length_cons] at hc
    obtain ⟨q1, r, hout, hw1, hb1, hfr, hc1, habs⟩ := gen_q_out_step q m dst hw hb hd (by omega)
    have hds1 : ∀ d ∈ dsts, d.length = q1.size := by
      intro d hdm; rw [hfr.2.2.2.1]; exact hds d (List.mem_cons_of_mem _ hdm)
    obtain ⟨rs, q2, hdr, hw2, hb2, hc2, hrc, hrec, hemp⟩ := ih q1 hw1 hb1 (by omega) hds1
    refine ⟨(0, r, is_gen_q_empty q1) :: rs, q2, ?_, hw2, hb2, ?_, ?_, ?_, ?_⟩
    · unfold drain
      rw [hout]
      dsimp only
      rw [hdr]
    · rw [List.length_cons]; omega
    · rw [List.map_cons, hrc, List.length_cons, List.replicate_succ]
    · rw [List.map_cons, hrec, habs, List.length_cons, List.take_succ_cons]
    · rw [List.map_cons, hemp, List.length_cons, List.range_succ_eq_map, List.map_cons,
        List.map_map, hw1.is_gen_q_empty_count]
      have h0 : (count q1 = 0) ↔ (count q = 0 + 1) := by omega
      simp only [h0]
      congr 1
      apply List.map_congr_left
      intro k _
      simp only [Function.comp, Nat.succ_eq_add_one]
      have hk : (count q1 = k + 1) ↔ (count q = k + 1 + 1) := by omega
      simp only [hk]

theorem range_map_last_one (n : Nat) :
    (List.range (n + 1)).map (fun k => if n + 1 = k + 1 then (1 : Int) else 0)
      = List.replicate n 0 ++ [1] := by
  rw [List.range_succ, List.map_append]
  congr 1
  · rw [List.eq_replicate_iff]
    refine ⟨by simp, ?_⟩
    intro b hb
    rw [List.mem_map] at hb
    obtain ⟨k, hk, rfl⟩ := hb
    rw [List.mem_range] at hk
    have : ¬ (n + 1 = k + 1) := by omega
    rw [if_neg this]
  · simp

theorem MAKE_GEN_Q_eq (store : Int) (sz N : Nat) (hsz : sz < UINT32_MOD)
    (hN : N < UINT32_MOD) :
    MAKE_GEN_Q store sz N = as_gen sz N (DEFINE_TYPE_Q store sz N) := by
  unfold MAKE_GEN_Q as_gen DEFINE_TYPE_Q
  rw [Nat.mod_eq_of_lt hsz, Nat.mod_eq_of_lt hN]

theorem WF.at_slot {q : gen_q_t} (hw : WF q) (p : Int) (h1 : q.buf ≤ p) (h2 : p < q.end_)
    (h3 : (p - q.buf) % (q.size : Int) = 0) : WF { q with in_ := p, out := p } := by
  obtain ⟨hs, hs1, hs2, he, _, _⟩ := hw
  exact ⟨hs, hs1, hs2, he, ⟨h1, h2, h3⟩, ⟨h1, h2, h3⟩⟩

theorem DEFINE_TYPE_Q_wf (store : Int) (sz N : Nat) (hs : 1 ≤ sz) (hsz : sz < UINT32_MOD)
    (hN : N < UINT32_MOD) : WF (as_gen sz N (DEFINE_TYPE_Q store sz N)) := by
  have hpos : 0 < (N + 1) * sz := Nat.mul_pos (by omega) (by omega)
  refine ⟨hs, hsz, hN, rfl, ⟨le_refl _, ?_, ?_⟩, ⟨le_refl _, ?_, ?_⟩⟩
  · show store < store + (((N + 1) * sz : Nat) : Int)
    omega
  · show (store - store) % (sz : Int) = 0
    simp
  · show store < store + (((N + 1) * sz : Nat) : Int)
    omega
  · show (store - store) % (sz : Int) = 0
    simp

theorem bind_gen_q_one_slot (store : Int) (store_size obj_size : Nat) (h1 : 1 ≤ obj_size)
    (h2 : obj_size ≤ store_size) (h3 : store_size < 2 * obj_size)
    (h4 : store_size < UINT32_MOD) :
    bind_gen_q store store_size obj_size = some
      { buf := store, end_ := store + (obj_size : Int), in_ := store, out := store,
        size := obj_size, len := 0 } := by
  have hd : store_size / obj_size = 1 :=
    Nat.div_eq_of_lt_le (by omega) (by omega)
  unfold bind_gen_q
  rw [if_neg (by omega), hd, Nat.one_mul, Nat.mod_eq_of_lt (by omega)]
  have : (1 + UINT32_MOD - 1) % UINT32_MOD = 0 := by
    rw [Nat.add_sub_cancel_left, Nat.mod_self]
  rw [this]

theorem bind_gen_q_no_slot (store : Int) (store_size obj_size : Nat)
    (h2 : store_size < obj_size) :
    bind_gen_q store store_size obj_size = some
      { buf := store, end_ := store, in_ := store, out := store,
        size := obj_size, len := 4294967295 } := by
  have hd : store_size / obj_size = 0 := Nat.div_eq_of_lt h2
  unfold bind_gen_q
  rw [if_neg (by omega), hd, Nat.zero_mul]
  have h0 : (0 + UINT32_MOD - 1) % UINT32_MOD = 4294967295 := by decide
  have h1 : (0 : Nat) % UINT32_MOD = 0 := by decide
  rw [h0, h1]
  simp

theorem gen_q_in_no_room (q : gen_q_t) (m : Storage) (x : List uint8_t)
    (h1 : q.in_ + q.size = q.end_) (h2 : q.buf = q.out) : gen_q_in q m x = some (-1, q, m) := by
  unfold gen_q_in
  dsimp only
  rw [if_pos h1, if_neg (by simp [h2])]

theorem gen_q_out_no_data (q : gen_q_t) (m : Storage) (dst : List uint8_t)
    (h : q.in_ = q.out) : gen_q_out q m dst = some (-1, q, m, dst) := by
  unfold gen_q_out
  rw [if_pos h]

theorem run_fixed (q : gen_q_t) (m : Storage) (h : ∀ op, ∃ r, step q m op = some (r, q, m))
    (ops : List Op) : ∃ rs, run q m ops = some (rs, q, m) := by
  induction ops with
  | nil => exact ⟨[], rfl⟩
  | cons op ops ih =>
    obtain ⟨r, hr⟩ := h op
    obtain ⟨rs, hrs⟩ := ih
    refine ⟨r :: rs, ?_⟩
    unfold run
    rw [hr]
    dsimp only
    rw [hrs]

theorem WF.ptrInv {q : gen_q_t} (hw : WF q) : PtrInv q := by
  obtain ⟨_, _, _, _, ⟨hi1, hi2, hi3⟩, ⟨ho1, ho2, ho3⟩⟩ := hw
  exact ⟨⟨hi1, hi2⟩, ⟨ho1, ho2⟩, hi3, ho3⟩

theorem WF.slots_inside {q : gen_q_t} (hw : WF q) (m : Storage) (hb : Bound q m) :
    m.inside q.in_ q.size ∧ m.inside q.out q.size := by
  obtain ⟨i, o, h⟩ := hw.atSlots
  have hi := h.slot_le m hb i h.2.1
  have ho := h.slot_le m hb o h.2.2.1
  obtain ⟨hs, _, _, he, hin, hout⟩ := h
  obtain ⟨hb1, hb2⟩ := hb
  unfold Storage.inside
  refine ⟨⟨?_, ?_⟩, ⟨?_, ?_⟩⟩ <;> omega

theorem splice_getElem_other {α : Type} (l x : List α) (a n k : Nat) (hx : x.length = n)
    (h : a + n ≤ l.length) (hk : k < a ∨ a + n ≤ k) :
    (l.take a ++ x ++ l.drop (a + n))[k]? = l[k]? := by
  rcases hk with hk | hk
  · rw [List.append_assoc, List.getElem?_append_left (by simp; omega), List.getElem?_take]
    simp [hk]
  · rw [List.getElem?_append_right (by simp; omega), List.getElem?_drop]
    simp only [List.length_append, List.length_take]
    congr 1
    omega

theorem memcpy_to_frame (m m1 : Storage) (dst : Int) (src : List uint8_t) (n : Nat)
    (h : memcpy_to m dst src n = some m1) :
    m1.base = m.base ∧ m1.bytes.length = m.bytes.length ∧
    ∀ k : Nat, (k < (dst - m.base).toNat ∨ (dst - m.base).toNat + n ≤ k) →
      m1.bytes[k]? = m.bytes[k]? := by
  unfold memcpy_to Storage.inside at h
  split at h
  · rename_i hc
    obtain ⟨⟨hc1, hc2⟩, hc3⟩ := hc
    have e := Option.some.inj h
    have hlen : (src.take n).length = n := by rw [List.length_take]; omega
    have hoff : (dst - m.base).toNat + n ≤ m.bytes.length := by omega
    rw [← e]
    refine ⟨rfl, ?_, ?_⟩
    · have := splice_length m.bytes (src.take n) (dst - m.base).toNat (by rw [hlen]; exact hoff)
      rw [hlen] at this
      exact this
    · intro k hk
      exact splice_getElem_other m.bytes (src.take n) _ n k hlen hoff hk
  · exact absurd h (by simp)

theorem gen_q_in_frame (q : gen_q_t) (m : Storage) (x : List uint8_t) (rc : Int)
    (q1 : gen_q_t) (m1 : Storage) (h : gen_q_in q m x = some (rc, q1, m1)) :
    q1.out = q.out ∧ same_consts q q1 ∧ m1.base = m.base ∧
    m1.bytes.length = m.bytes.length ∧
    (∀ k : Nat, (k < (q.in_ - m.base).toNat ∨ (q.in_ - m.base).toNat + q.size ≤ k) →
      m1.bytes[k]? = m.bytes[k]?) ∧
    (rc ≠ 0 → q1 = q ∧ m1 = m) := by
  unfold gen_q_in at h
  dsimp only at h
  by_cases hne : (if q.in_ + (q.size : Int) = q.end_ then q.buf else q.in_ + (q.size : Int))
      ≠ q.out
  · rw [if_pos hne] at h
    cases hm : memcpy_to m q.in_ x q.size with
    | none => rw [hm] at h; exact absurd h (by simp)
    | some m2 =>
      rw [hm] at h
      dsimp only at h
      have e := Option.some.inj h
      obtain ⟨e1, e2⟩ := Prod.mk.inj e
      obtain ⟨e3, e4⟩ := Prod.mk.inj e2
      obtain ⟨f1, f2, f3⟩ := memcpy_to_frame m m2 q.in_ x q.size hm
      rw [← e3, ← e4]
      exact ⟨rfl, ⟨rfl, rfl, rfl, rfl⟩, f1, f2, f3, fun hne => absurd e1.symm hne⟩
  · rw [if_neg hne] at h
    have e := Option.some.inj h
    obtain ⟨_, e2⟩ := Prod.mk.inj e
    obtain ⟨e3, e4⟩ := Prod.mk.inj e2
    rw [← e3, ← e4]
    exact ⟨rfl, ⟨rfl, rfl, rfl, rfl⟩, rfl, rfl, fun _ _ => rfl, fun _ => ⟨rfl, rfl⟩⟩

theorem gen_q_out_frame (q : gen_q_t) (m : Storage) (dst : List uint8_t) (rc : Int)
    (q1 : gen_q_t) (m1 : Storage) (dst1 : List uint8_t)
    (h : gen_q_out q m dst = some (rc, q1, m1, dst1)) :
    q1.in_ = q.in_ ∧ same_consts q q1 ∧ m1 = m ∧ (rc ≠ 0 → q1 = q ∧ dst1 = dst) := by
  unfold gen_q_out at h
  by_cases heq : q.in_ = q.out
  · rw [if_pos heq] at h
    have e := Option.some.inj h
    obtain ⟨_, e2⟩ := Prod.mk.inj e
    obtain ⟨e3, e4⟩ := Prod.mk.inj e2
    obtain ⟨e5, e6⟩ := Prod.mk.inj e4
    rw [← e3, ← e5, ← e6]
    exact ⟨rfl, ⟨rfl, rfl, rfl, rfl⟩, rfl, fun _ => ⟨rfl, rfl⟩⟩
  · rw [if_neg heq] at h
    dsimp only at h
    cases hm : memcpy_from m dst q.out q.size with
    | none => rw [hm] at h; exact absurd h (by simp)
    | some d2 =>
      rw [hm] at h
      dsimp only at h
      have e := Option.some.inj h
      obtain ⟨e1, e2⟩ := Prod.mk.inj e
      obtain ⟨e3, e4⟩ := Prod.mk.inj e2
      obtain ⟨e5, _⟩ := Prod.mk.inj e4
      rw [← e3, ← e5]
      exact ⟨rfl, ⟨rfl, rfl, rfl, rfl⟩, rfl, fun hne => absurd e1.symm hne⟩

theorem bind_gen_q_wf (store : Int) (store_size obj_size : Nat) (h1 : 1 ≤ obj_size)
    (h2 : 2 * obj_size ≤ store_size) (h3 : store_size < UINT32_MOD) :
    ∃ q0, bind_gen_q store store_size obj_size = some q0 ∧ WF q0 ∧ q0.buf = store ∧
      q0.size = obj_size ∧ q0.end_ ≤ store + (store_size : Int) := by
  obtain ⟨hq, hd2, hle⟩ := bind_gen_q_eq store store_size obj_size h1 h2 h3
  have hdle : store_size / obj_size ≤ store_size := Nat.div_le_self _ _
  have hlen : store_size / obj_size - 1 + 1 = store_size / obj_size := by omega
  have hpos : 0 < store_size / obj_size * obj_size := Nat.mul_pos (by omega) (by omega)
  refine ⟨_, hq, ⟨h1, ?_, ?_, ?_, ⟨le_refl _, ?_, ?_⟩, ⟨le_refl _, ?_, ?_⟩⟩, rfl, rfl, ?_⟩
  · show obj_size < UINT32_MOD
    omega
  · show store_size / obj_size - 1 < UINT32_MOD
    omega
  · show store + ((store_size / obj_size * obj_size : Nat) : Int)
      = store + (((store_size / obj_size - 1 + 1) * obj_size : Nat) : Int)
    rw [hlen]
  · show store < store + ((store_size / obj_size * obj_size : Nat) : Int)
    omega
  · show (store - store) % (obj_size : Int) = 0
    simp
  · show store < store + ((store_size / obj_size * obj_size : Nat) : Int)
    omega
  · show (store - store) % (obj_size : Int) = 0
    simp
  · show store + ((store_size / obj_size * obj_size : Nat) : Int) ≤ store + (store_size : Int)
    omega

/-! ## The claims -/

/-- C1: first-in first-out refinement of the generic queue. On a well-formed descriptor bound
to its store, with `abs` the list of records in the slots from `out` up to `in`: `gen_q_in` of a
record `x` returns 0 and turns `abs` into `abs ++ [x]` when fewer than `len` records are queued;
`gen_q_out` returns 0, writes the head of `abs` to the destination and leaves the tail when `abs`
is not empty; and every sequence of `gen_q_in`, `gen_q_out`, `is_gen_q_empty` and
`is_gen_q_full` calls runs to the end with the records queued at the start followed by the
records enqueued with success equal to the records dequeued followed by the records still
queued. -/
theorem gen_q_fifo_refinement (q : gen_q_t) (m : Storage) (hw : WF q) (hb : Bound q m) :
    (∀ x : List uint8_t, x.length = q.size → (abs q m).length < q.len →
      ∃ q1 m1, gen_q_in q m x = some (0, q1, m1) ∧ WF q1 ∧ Bound q1 m1 ∧
        abs q1 m1 = abs q m ++ [x]) ∧
    (∀ dst : List uint8_t, dst.length = q.size → abs q m ≠ [] →
      ∃ q1 r, gen_q_out q m dst = some (0, q1, m, r) ∧ WF q1 ∧ Bound q1 m ∧
        (abs q m).head? = some r ∧ abs q1 m = (abs q m).tail) ∧
    (∀ ops : List Op, (∀ op ∈ ops, op.fits q.size ∧ ¬ op.discards) →
      ∃ rs q1 m1, run q m ops = some (rs, q1, m1) ∧ WF q1 ∧ Bound q1 m1 ∧
        abs q m ++ enqueued ops rs = dequeued ops rs ++ abs q1 m1) := by
  refine ⟨?_, ?_, ?_⟩
  · intro x hx hc
    rw [abs_length] at hc
    obtain ⟨q1, m1, hin, hw1, hb1, _, _, habs⟩ := gen_q_in_step q m x hw hb hx hc
    exact ⟨q1, m1, hin, hw1, hb1, habs⟩
  · intro dst hd hne
    have hc : 0 < count q := by
      rw [← abs_length q m]
      exact List.length_pos.2 hne
    obtain ⟨q1, r, hout, hw1, hb1, _, _, habs⟩ := gen_q_out_step q m dst hw hb hd hc
    exact ⟨q1, r, hout, hw1, hb1, by rw [habs]; rfl, by rw [habs]; rfl⟩
  · intro ops hops
    exact run_fifo ops q m hw hb hops

/-- C1 at a queue of usable length 2 with both pointers at the last slot: two records go in,
a third is rejected, and the two come out in order. -/
theorem gen_q_fifo_refinement_witness :
    WF ring3_last ∧ Bound ring3_last store3 ∧
    ∃ rs q1 m1,
      run ring3_last store3
          [Op.enq [1, 2], Op.enq [3, 4], Op.full, Op.enq [5, 6], Op.deq [0, 0], Op.deq [0, 0],
            Op.empty, Op.deq [7, 7]]
        = some (rs, q1, m1) ∧ WF q1 ∧ Bound q1 m1 ∧
      abs ring3_last store3 ++
          enqueued [Op.enq [1, 2], Op.enq [3, 4], Op.full, Op.enq [5, 6], Op.deq [0, 0],
            Op.deq [0, 0], Op.empty, Op.deq [7, 7]] rs
        = dequeued [Op.enq [1, 2], Op.enq [3, 4], Op.full, Op.enq [5, 6], Op.deq [0, 0],
            Op.deq [0, 0], Op.empty, Op.deq [7, 7]] rs ++ abs q1 m1 :=
  ⟨by decide, by decide,
    (gen_q_fifo_refinement ring3_last store3 (by decide) (by decide)).2.2 _ (by decide)⟩

/-- C2: capacity is exactly the usable length. On a well-formed empty queue (`in == out` at
any slot) of usable length `L >= 1`, `L` consecutive `gen_q_in` calls all return 0,
`is_gen_q_full` is 0 after each of the first `L - 1` and 1 after the `L`-th, and one more
`gen_q_in` returns -1 and changes nothing. -/
theorem gen_q_capacity (q : gen_q_t) (m : Storage) (hw : WF q) (hb : Bound q m)
    (hl : 1 ≤ q.len) (he : q.in_ = q.out) (xs : List (List uint8_t)) (hn : xs.length = q.len)
    (hxs : ∀ x ∈ xs, x.length = q.size) (y : List uint8_t) :
    ∃ q1 m1, fill q m xs = some (List.replicate (q.len - 1) (0, 0) ++ [(0, 1)], q1, m1) ∧
      gen_q_in q1 m1 y = some (-1, q1, m1) := by
  have hc0 : count q = 0 := hw.empty_iff_count.1 he
  obtain ⟨q1, m1, hfill, hw1, _, hc1, hl1, _⟩ :=
    fill_spec xs q m hw hb (by rw [hc0, hn]; omega) hxs
  refine ⟨q1, m1, ?_, gen_q_in_reject q1 m1 y hw1 (by rw [hc1, hc0, hn, hl1]; omega)⟩
  rw [hfill, hc0, hn]
  obtain ⟨n, hn1⟩ : ∃ n, q.len = n + 1 := ⟨q.len - 1, by omega⟩
  rw [hn1, range_map_last]
  rfl

/-- C2 at a queue of usable length 2 with both pointers at the last slot. -/
theorem gen_q_capacity_witness :
    ∃ q1 m1, fill ring3_last store3 [[1, 2], [3, 4]]
        = some (List.replicate (ring3_last.len - 1) (0, 0) ++ [(0, 1)], q1, m1) ∧
      gen_q_in q1 m1 [5, 6] = some (-1, q1, m1) :=
  gen_q_capacity ring3_last store3 (by decide) (by decide) (by decide) (by decide)
    [[1, 2], [3, 4]] (by decide) (by decide) [5, 6]

/-- C3: a rejected enqueue is atomic. On a well-formed descriptor bound to its store,
`gen_q_in` of a record of `size` bytes returns 0 or -1; it returns -1 exactly when the wrapped
successor of `in` (`in + size`, or `buf` when that equals `end`) equals `out`, and then the
descriptor and the store are unchanged. -/
theorem gen_q_in_reject_atomic (q : gen_q_t) (m : Storage) (x : List uint8_t) (hw : WF q)
    (hb : Bound q m) (hx : x.length = q.size) :
    ∃ rc q1 m1, gen_q_in q m x = some (rc, q1, m1) ∧ (rc = 0 ∨ rc = -1) ∧
      (rc = -1 ↔ (if q.in_ + q.size = q.end_ then q.buf else q.in_ + q.size) = q.out) ∧
      (rc = -1 → q1 = q ∧ m1 = m) := by
  by_cases hc : count q = q.len
  · refine ⟨-1, q, m, gen_q_in_reject q m x hw hc, Or.inr rfl, ?_, fun _ => ⟨rfl, rfl⟩⟩
    exact ⟨fun _ => hw.next_in_eq_out_iff.2 hc, fun _ => rfl⟩
  · have hlt : count q < q.len := by have := hw.count_le_len; omega
    obtain ⟨q1, m1, hin, _⟩ := gen_q_in_step q m x hw hb hx hlt
    refine ⟨0, q1, m1, hin, Or.inl rfl, ?_, fun h => absurd h (by decide)⟩
    exact ⟨fun h => absurd h (by decide), fun h => absurd (hw.next_in_eq_out_iff.1 h) hc⟩

/-- C3 at a full queue whose write pointer is at the last slot, so that its successor wraps
to `buf`. -/
theorem gen_q_in_reject_atomic_witness :
    ∃ rc q1 m1, gen_q_in ring3_full store3 [5, 6] = some (rc, q1, m1) ∧ (rc = 0 ∨ rc = -1) ∧
      (rc = -1 ↔ (if ring3_full.in_ + ring3_full.size = ring3_full.end_ then ring3_full.buf
          else ring3_full.in_ + ring3_full.size) = ring3_full.out) ∧
      (rc = -1 → q1 = ring3_full ∧ m1 = store3) :=
  gen_q_in_reject_atomic ring3_full store3 [5, 6] (by decide) (by decide) (by decide)

/-- C4: a rejected dequeue is atomic. On a well-formed descriptor bound to its store,
`gen_q_out` into a record of `size` bytes returns -1 if and only if `in == out`, which is when
`is_gen_q_empty` is non-zero, and returns 0 otherwise; when it returns -1 the descriptor, the
store and the destination record are unchanged. -/
theorem gen_q_out_reject_atomic (q : gen_q_t) (m : Storage) (dst : List uint8_t) (hw : WF q)
    (hb : Bound q m) (hd : dst.length = q.size) :
    ∃ rc q1 m1 dst1, gen_q_out q m dst = some (rc, q1, m1, dst1) ∧
      (rc = -1 ↔ q.in_ = q.out) ∧ (q.in_ = q.out ↔ is_gen_q_empty q ≠ 0) ∧
      (rc ≠ -1 → rc = 0) ∧ (rc = -1 → q1 = q ∧ m1 = m ∧ dst1 = dst) := by
  have hemp : q.in_ = q.out ↔ is_gen_q_empty q ≠ 0 := by
    unfold is_gen_q_empty; split <;> simp [*]
  by_cases hc : count q = 0
  · have he := hw.empty_iff_count.2 hc
    exact ⟨-1, q, m, dst, gen_q_out_reject q m dst hw hc, ⟨fun _ => he, fun _ => rfl⟩, hemp,
      fun h => absurd rfl h, fun _ => ⟨rfl, rfl, rfl⟩⟩
  · obtain ⟨q1, r, hout, _⟩ := gen_q_out_step q m dst hw hb hd (by omega)
    refine ⟨0, q1, m, r, hout, ?_, hemp, fun _ => rfl, fun h => absurd h (by decide)⟩
    exact ⟨fun h => absurd h (by decide), fun h => absurd (hw.empty_iff_count.1 h) hc⟩

/-- C4 at an empty queue with both pointers at the last slot. -/
theorem gen_q_out_reject_atomic_witness :
    ∃ rc q1 m1 dst1, gen_q_out ring3_last store3 [7, 7] = some (rc, q1, m1, dst1) ∧
      (rc = -1 ↔ ring3_last.in_ = ring3_last.out) ∧
      (ring3_last.in_ = ring3_last.out ↔ is_gen_q_empty ring3_last ≠ 0) ∧
      (rc ≠ -1 → rc = 0) ∧ (rc = -1 → q1 = ring3_last ∧ m1 = store3 ∧ dst1 = [7, 7]) :=
  gen_q_out_reject_atomic ring3_last store3 [7, 7] (by decide) (by decide) (by decide)

/-- C5: round trip. On a well-formed empty queue of usable length at least 1 (`in == out` at
any slot, the last one included), `gen_q_in` of a record `x` of `size` bytes followed
by `gen_q_out` both return 0, the destination record is `x` byte for byte, the store is the one
`gen_q_in` left, and the queue is empty again. -/
theorem gen_q_round_trip (q : gen_q_t) (m : Storage) (x dst : List uint8_t) (hw : WF q)
    (hb : Bound q m) (hl : 1 ≤ q.len) (he : q.in_ = q.out) (hx : x.length = q.size)
    (hd : dst.length = q.size) :
    ∃ q1 m1 q2, gen_q_in q m x = some (0, q1, m1) ∧ gen_q_out q1 m1 dst = some (0, q2, m1, x) ∧
      q2.in_ = q2.out := by
  have hc0 : count q = 0 := hw.empty_iff_count.1 he
  obtain ⟨q1, m1, hin, hw1, hb1, hfr, hc1, habs⟩ := gen_q_in_step q m x hw hb hx (by omega)
  obtain ⟨q2, r, hout, hw2, _, _, hc2, habs2⟩ :=
    gen_q_out_step q1 m1 dst hw1 hb1 (by rw [hfr.2.2.2.1]; exact hd) (by omega)
  have hnil : abs q m = [] := List.length_eq_zero.1 (by rw [abs_length]; exact hc0)
  rw [habs, hnil, List.nil_append] at habs2
  have hr : r = x := (List.cons.inj habs2).1.symm
  rw [hr] at hout
  exact ⟨q1, m1, q2, hin, hout, hw2.empty_iff_count.2 (by omega)⟩

/-- C5 at a queue of usable length 2 with both pointers at the last slot, where both wrap. -/
theorem gen_q_round_trip_witness :
    ∃ q1 m1 q2, gen_q_in ring3_last store3 [10, 9] = some (0, q1, m1) ∧
      gen_q_out q1 m1 [0, 0] = some (0, q2, m1, [10, 9]) ∧ q2.in_ = q2.out :=
  gen_q_round_trip ring3_last store3 [10, 9] [0, 0] (by decide) (by decide) (by decide)
    (by decide) (by decide) (by decide)

/-- C6: `is_gen_q_full` agrees with `gen_q_in`. On a well-formed descriptor bound to its
store, `is_gen_q_full` is non-zero if and only if advancing `in` by one slot with wraparound
gives `out`, if and only if `gen_q_in` returns non-zero on that state, if and only if exactly
`len` records are queued. -/
theorem is_gen_q_full_agrees (q : gen_q_t) (m : Storage) (x : List uint8_t) (hw : WF q)
    (hb : Bound q m) (hx : x.length = q.size) :
    (is_gen_q_full q ≠ 0 ↔
      (if q.in_ + q.size = q.end_ then q.buf else q.in_ + q.size) = q.out) ∧
    (∃ rc q1 m1, gen_q_in q m x = some (rc, q1, m1) ∧ (is_gen_q_full q ≠ 0 ↔ rc ≠ 0)) ∧
    (is_gen_q_full q ≠ 0 ↔ count q = q.len) ∧
    (is_gen_q_full q ≠ 0 ↔ (abs q m).length = q.len) := by
  have hfull : is_gen_q_full q ≠ 0 ↔ count q = q.len := by
    rw [hw.is_gen_q_full_count]; split <;> simp [*]
  refine ⟨by rw [hfull, hw.next_in_eq_out_iff], ?_, hfull, by rw [hfull, abs_length]⟩
  by_cases hc : count q = q.len
  · exact ⟨-1, q, m, gen_q_in_reject q m x hw hc, by rw [hfull]; simp [hc]⟩
  · have hlt : count q < q.len := by have := hw.count_le_len; omega
    obtain ⟨q1, m1, hin, _⟩ := gen_q_in_step q m x hw hb hx hlt
    exact ⟨0, q1, m1, hin, by rw [hfull]; simp [hc]⟩

/-- C6 at a full queue of usable length 2. -/
theorem is_gen_q_full_agrees_witness :
    (is_gen_q_full ring3_full ≠ 0 ↔
      (if ring3_full.in_ + ring3_full.size = ring3_full.end_ then ring3_full.buf
        else ring3_full.in_ + ring3_full.size) = ring3_full.out) ∧
    (∃ rc q1 m1, gen_q_in ring3_full store3 [5, 6] = some (rc, q1, m1) ∧
      (is_gen_q_full ring3_full ≠ 0 ↔ rc ≠ 0)) ∧
    (is_gen_q_full ring3_full ≠ 0 ↔ count ring3_full = ring3_full.len) ∧
    (is_gen_q_full ring3_full ≠ 0 ↔ (abs ring3_full store3).length = ring3_full.len) :=
  is_gen_q_full_agrees ring3_full store3 [5, 6] (by decide) (by decide) (by decide)

/-- C7 as stated fails: with one record queued in a queue of usable length 2, the slot behind
the write pointer is the read pointer, yet `is_gen_q_full` returns 0. -/
theorem is_gen_q_full_behind_write_counterexample :
    WF ring3_one ∧
    ¬ (is_gen_q_full ring3_one ≠ 0 ↔ slot_behind ring3_one ring3_one.in_ = ring3_one.out) := by
  decide

/-- C7, amended: `is_gen_q_full` is non-zero if and only if the slot immediately behind the
read pointer (`out - size`, wrapped to `end - size` when that falls below `buf`) equals the
write pointer `in`; on a well-formed descriptor that slot is the one whose successor with
wraparound is `out`. -/
theorem is_gen_q_full_behind_read (q : gen_q_t) (hw : WF q) :
    (is_gen_q_full q ≠ 0 ↔ slot_behind q q.out = q.in_) ∧
    slot_after q (slot_behind q q.out) 1 = q.out := by
  refine ⟨?_, hw.slot_behind_out⟩
  unfold is_gen_q_full slot_behind
  dsimp only
  constructor
  · intro h
    by_contra hne
    exact h (if_neg (fun e => hne e.symm))
  · intro h
    rw [if_pos h.symm]; decide

/-- C7, amended, at a full queue of usable length 2 with `out` at `buf`, where the slot behind
`out` wraps to the last slot. -/
theorem is_gen_q_full_behind_read_witness :
    (is_gen_q_full ring3_full ≠ 0 ↔ slot_behind ring3_full ring3_full.out = ring3_full.in_) ∧
    slot_after ring3_full (slot_behind ring3_full ring3_full.out) 1 = ring3_full.out :=
  is_gen_q_full_behind_read ring3_full (by decide)

/-- C8: `bind_gen_q` builds a conforming descriptor. For `obj_size >= 1` and a `uint32_t`
`store_size >= 2*obj_size`, the descriptor returned has `buf = in = out = store`,
`size = obj_size`, `len = store_size/obj_size - 1 >= 1` and
`end = store + (len+1)*obj_size <= store + store_size`, the `store_size mod obj_size` trailing
bytes left out; `gen_q_len` and `gen_q_size` return `len` and `obj_size`; the descriptor is
well formed and bound to a store of `store_size` bytes at `store`; and over a store of exactly
`(N+1)*obj_size` bytes it is the descriptor `MAKE_GEN_Q` builds for `qlen = N`. -/
theorem bind_gen_q_conforming (store : Int) (store_size obj_size : Nat) (h1 : 1 ≤ obj_size)
    (h2 : 2 * obj_size ≤ store_size) (h3 : store_size < UINT32_MOD) :
    ∃ q, bind_gen_q store store_size obj_size = some q ∧
      (q.buf = store ∧ q.in_ = store ∧ q.out = store ∧ q.size = obj_size) ∧
      (q.len = store_size / obj_size - 1 ∧ 1 ≤ q.len) ∧
      (q.end_ = store + ((q.len + 1) * obj_size : Nat) ∧ q.end_ ≤ store + store_size ∧
        store + store_size - q.end_ = (store_size % obj_size : Nat)) ∧
      (gen_q_len q = q.len ∧ gen_q_size q = obj_size) ∧
      (WF q ∧ ∀ m : Storage, m.base = store → m.bytes.length = store_size → Bound q m) ∧
      (∀ N : Nat, store_size = (N + 1) * obj_size → q = MAKE_GEN_Q store obj_size N) := by
  obtain ⟨hq, hd2, hle⟩ := bind_gen_q_eq store store_size obj_size h1 h2 h3
  have hdle : store_size / obj_size ≤ store_size := Nat.div_le_self _ _
  have hlen : store_size / obj_size - 1 + 1 = store_size / obj_size := by omega
  have hpos : 0 < store_size / obj_size * obj_size := Nat.mul_pos (by omega) (by omega)
  have hmod : store_size / obj_size * obj_size + store_size % obj_size = store_size := by
    rw [Nat.mul_comm]; exact Nat.div_add_mod _ _
  refine ⟨_, hq, ⟨rfl, rfl, rfl, rfl⟩, ⟨rfl, ?_⟩, ⟨?_, ?_, ?_⟩, ⟨rfl, rfl⟩, ⟨?_, ?_⟩, ?_⟩
  · show 1 ≤ store_size / obj_size - 1
    omega
  · show store + ((store_size / obj_size * obj_size : Nat) : Int)
      = store + (((store_size / obj_size - 1 + 1) * obj_size : Nat) : Int)
    rw [hlen]
  · show store + ((store_size / obj_size * obj_size : Nat) : Int) ≤ store + (store_size : Int)
    omega
  · show store + (store_size : Int) - (store + ((store_size / obj_size * obj_size : Nat) : Int))
      = ((store_size % obj_size : Nat) : Int)
    omega
  · refine ⟨h1, ?_, ?_, ?_, ⟨?_, ?_, ?_⟩, ⟨?_, ?_, ?_⟩⟩
    · show obj_size < UINT32_MOD
      omega
    · show store_size / obj_size - 1 < UINT32_MOD
      omega
    · show store + ((store_size / obj_size * obj_size : Nat) : Int)
        = store + (((store_size / obj_size - 1 + 1) * obj_size : Nat) : Int)
      rw [hlen]
    · exact le_refl _
    · show store < store + ((store_size / obj_size * obj_size : Nat) : Int)
      omega
    · show (store - store) % (obj_size : Int) = 0
      simp
    · exact le_refl _
    · show store < store + ((store_size / obj_size * obj_size : Nat) : Int)
      omega
    · show (store - store) % (obj_size : Int) = 0
      simp
  · intro m hm1 hm2
    refine ⟨hm1, ?_⟩
    show store + ((store_size / obj_size * obj_size : Nat) : Int) ≤ m.base + (m.bytes.length : Int)
    rw [hm1, hm2]; omega
  · intro N hN
    have hdiv : store_size / obj_size = N + 1 := by
      rw [hN]; exact Nat.mul_div_cancel _ (by omega)
    have hN1 : N + 1 ≤ (N + 1) * obj_size := Nat.le_mul_of_pos_right _ (by omega)
    have hNlt : N < UINT32_MOD := by omega
    have hslt : obj_size < UINT32_MOD := by omega
    unfold MAKE_GEN_Q
    rw [Nat.mod_eq_of_lt hNlt, Nat.mod_eq_of_lt hslt, hdiv]
    rfl

/-- C8 at the store of the test, six records of eight bytes. -/
theorem bind_gen_q_conforming_witness :
    ∃ q, bind_gen_q 1000 48 8 = some q ∧
      (q.buf = 1000 ∧ q.in_ = 1000 ∧ q.out = 1000 ∧ q.size = 8) ∧
      (q.len = 48 / 8 - 1 ∧ 1 ≤ q.len) ∧
      (q.end_ = 1000 + ((q.len + 1) * 8 : Nat) ∧ q.end_ ≤ 1000 + (48 : Nat) ∧
        1000 + (48 : Nat) - q.end_ = (48 % 8 : Nat)) ∧
      (gen_q_len q = q.len ∧ gen_q_size q = 8) ∧
      (WF q ∧ ∀ m : Storage, m.base = 1000 → m.bytes.length = 48 → Bound q m) ∧
      (∀ N : Nat, 48 = (N + 1) * 8 → q = MAKE_GEN_Q 1000 8 N) :=
  bind_gen_q_conforming 1000 48 8 (by decide) (by decide) (by decide)

/-- C9: a freshly bound queue is empty and not full. For `obj_size >= 1` and a `uint32_t`
`store_size >= 2*obj_size`, the descriptor returned by `bind_gen_q` has `is_gen_q_empty`
non-zero and `is_gen_q_full` zero: in `is_gen_q_full` the branch `prev < buf` is taken and
`prev` wraps to the last slot `end - size`, which differs from `in`. -/
theorem bind_gen_q_fresh (store : Int) (store_size obj_size : Nat) (h1 : 1 ≤ obj_size)
    (h2 : 2 * obj_size ≤ store_size) (h3 : store_size < UINT32_MOD) :
    ∃ q, bind_gen_q store store_size obj_size = some q ∧
      is_gen_q_empty q ≠ 0 ∧ is_gen_q_full q = 0 ∧
      q.out - q.size < q.buf ∧ q.end_ - q.size ≠ q.in_ := by
  obtain ⟨hq, hd2, hle⟩ := bind_gen_q_eq store store_size obj_size h1 h2 h3
  have h2le : 2 * obj_size ≤ store_size / obj_size * obj_size := Nat.mul_le_mul_right _ hd2
  have hlt : store - (obj_size : Int) < store := by omega
  have hne : store + ((store_size / obj_size * obj_size : Nat) : Int) - (obj_size : Int) ≠ store := by
    omega
  refine ⟨_, hq, ?_, ?_, hlt, hne⟩
  · unfold is_gen_q_empty
    rw [if_pos rfl]; decide
  · unfold is_gen_q_full
    dsimp only
    rw [if_pos hlt, if_neg (fun e => hne e.symm)]

/-- C9 at the store of the test, six records of eight bytes. -/
theorem bind_gen_q_fresh_witness :
    ∃ q, bind_gen_q 1000 48 8 = some q ∧
      is_gen_q_empty q ≠ 0 ∧ is_gen_q_full q = 0 ∧
      q.out - q.size < q.buf ∧ q.end_ - q.size ≠ q.in_ :=
  bind_gen_q_fresh 1000 48 8 (by decide) (by decide) (by decide)

/-- C10 as stated fails: with the write pointer one slot past `buf`, `gen_q_clear` leaves both
pointers at that slot, not at `buf`. -/
theorem gen_q_clear_to_base_counterexample :
    WF ring3_one ∧
    ¬ ((gen_q_clear ring3_one).out = (gen_q_clear ring3_one).buf ∧
       (gen_q_clear ring3_one).in_ = (gen_q_clear ring3_one).buf) := by
  decide

/-- C10, amended: `gen_q_clear` moves the read pointer to the write pointer and changes nothing
else, so afterwards `out == in` at the position `in` had before the call; the two pointers are
at `buf` exactly when `in` was there already. -/
theorem gen_q_clear_out_to_in (q : gen_q_t) :
    (gen_q_clear q).out = q.in_ ∧ (gen_q_clear q).in_ = q.in_ ∧
    (gen_q_clear q).buf = q.buf ∧ (gen_q_clear q).end_ = q.end_ ∧
    (gen_q_clear q).size = q.size ∧ (gen_q_clear q).len = q.len ∧
    ((gen_q_clear q).out = (gen_q_clear q).buf ∧ (gen_q_clear q).in_ = (gen_q_clear q).buf
      ↔ q.in_ = q.buf) := by
  refine ⟨rfl, rfl, rfl, rfl, rfl, rfl, ?_⟩
  show (q.in_ = q.buf ∧ q.in_ = q.buf) ↔ q.in_ = q.buf
  exact and_self_iff

/-- C11: `gen_q_clear` sets the queue to empty. On a well-formed descriptor of usable length
`L >= 1` bound to its store, holding any number of records at any position, after
`gen_q_clear` `is_gen_q_empty` is non-zero, `is_gen_q_full` is zero, `gen_q_out` returns -1 and
changes nothing, and `L` consecutive `gen_q_in` calls return 0 with `is_gen_q_full` 0 after the
first `L - 1` and 1 after the `L`-th, the next `gen_q_in` returning -1. -/
theorem gen_q_clear_empties (q : gen_q_t) (m : Storage) (hw : WF q) (hb : Bound q m)
    (hl : 1 ≤ q.len) (xs : List (List uint8_t)) (hn : xs.length = q.len)
    (hxs : ∀ x ∈ xs, x.length = q.size) (y dst : List uint8_t) :
    is_gen_q_empty (gen_q_clear q) ≠ 0 ∧ is_gen_q_full (gen_q_clear q) = 0 ∧
    gen_q_out (gen_q_clear q) m dst = some (-1, gen_q_clear q, m, dst) ∧
    ∃ q1 m1, fill (gen_q_clear q) m xs
        = some (List.replicate (q.len - 1) (0, 0) ++ [(0, 1)], q1, m1) ∧
      gen_q_in q1 m1 y = some (-1, q1, m1) := by
  have hwc : WF (gen_q_clear q) := hw.gen_q_clear_wf
  have hbc : Bound (gen_q_clear q) m := hb
  have hc0 : count (gen_q_clear q) = 0 := count_gen_q_clear q
  have hlen : (gen_q_clear q).len = q.len := rfl
  refine ⟨?_, ?_, gen_q_out_reject _ m dst hwc hc0, ?_⟩
  · rw [hwc.is_gen_q_empty_count, if_pos hc0]; decide
  · rw [hwc.is_gen_q_full_count, if_neg (by rw [hc0, hlen]; omega)]
  · obtain ⟨q1, m1, hfill, hw1, _, hc1, hl1, _⟩ :=
      fill_spec xs (gen_q_clear q) m hwc hbc (by rw [hc0, hn, hlen]; omega) hxs
    refine ⟨q1, m1, ?_, gen_q_in_reject q1 m1 y hw1 (by rw [hc1, hc0, hn, hl1, hlen]; omega)⟩
    rw [hfill, hc0, hn, hlen]
    obtain ⟨n, hn1⟩ : ∃ n, q.len = n + 1 := ⟨q.len - 1, by omega⟩
    rw [hn1, range_map_last]
    rfl

/-- C11 at a full queue of usable length 2. -/
theorem gen_q_clear_empties_witness :
    is_gen_q_empty (gen_q_clear ring3_full) ≠ 0 ∧ is_gen_q_full (gen_q_clear ring3_full) = 0 ∧
    gen_q_out (gen_q_clear ring3_full) store3 [7, 7]
      = some (-1, gen_q_clear ring3_full, store3, [7, 7]) ∧
    ∃ q1 m1, fill (gen_q_clear ring3_full) store3 [[1, 2], [3, 4]]
        = some (List.replicate (ring3_full.len - 1) (0, 0) ++ [(0, 1)], q1, m1) ∧
      gen_q_in q1 m1 [5, 6] = some (-1, q1, m1) :=
  gen_q_clear_empties ring3_full store3 (by decide) (by decide) (by decide)
    [[1, 2], [3, 4]] (by decide) (by decide) [5, 6] [7, 7]

/-- C12: fill then drain. On a well-formed empty queue (`in == out` at any slot) of usable
length `L >= 1`, after `gen_q_in` of `L` records, each returning 0, and one further `gen_q_in`
returning -1, `is_gen_q_empty` is 0 and `L` consecutive `gen_q_out` calls all return 0 and
deliver the `L` records in order, unchanged; `is_gen_q_empty` is 0 after each of the first
`L - 1` of them and 1 after the `L`-th, and one more `gen_q_out` returns -1. -/
theorem gen_q_fill_drain (q : gen_q_t) (m : Storage) (hw : WF q) (hb : Bound q m)
    (hl : 1 ≤ q.len) (he : q.in_ = q.out) (vs dsts : List (List uint8_t))
    (hn : vs.length = q.len) (hvs : ∀ v ∈ vs, v.length = q.size)
    (hdn : dsts.length = q.len) (hds : ∀ d ∈ dsts, d.length = q.size) (y d : List uint8_t) :
    ∃ q1 m1 rs q2,
      fill q m vs = some (List.replicate (q.len - 1) (0, 0) ++ [(0, 1)], q1, m1) ∧
      gen_q_in q1 m1 y = some (-1, q1, m1) ∧ is_gen_q_empty q1 = 0 ∧
      drain q1 m1 dsts = some (rs, q2) ∧
      rs.map (fun r => r.1) = List.replicate q.len 0 ∧
      rs.map (fun r => r.2.1) = vs ∧
      rs.map (fun r => r.2.2) = List.replicate (q.len - 1) 0 ++ [1] ∧
      gen_q_out q2 m1 d = some (-1, q2, m1, d) := by
  have hc0 : count q = 0 := hw.empty_iff_count.1 he
  obtain ⟨q1, m1, hfill, hw1, hb1, hc1, hl1, hs1⟩ :=
    fill_spec vs q m hw hb (by rw [hc0, hn]; omega) hvs
  have habs : abs q1 m1 = vs := by
    have := fill_abs vs q m hw hb (by rw [hc0, hn]; omega) hvs _ q1 m1 hfill
    rw [this, abs_of_count_zero q m hc0, List.nil_append]
  have hcL : count q1 = q.len := by rw [hc1, hc0, hn]; omega
  have hds1 : ∀ d ∈ dsts, d.length = q1.size := by
    intro d0 hd0; rw [hs1]; exact hds d0 hd0
  obtain ⟨rs, q2, hdr, hw2, _, hc2, hrc, hrec, hemp⟩ :=
    drain_spec m1 dsts q1 hw1 hb1 (by rw [hdn, hcL]) hds1
  obtain ⟨n, hn1⟩ : ∃ n, q.len = n + 1 := ⟨q.len - 1, by omega⟩
  refine ⟨q1, m1, rs, q2, ?_, gen_q_in_reject q1 m1 y hw1 (by rw [hcL, hl1]), ?_, hdr, ?_, ?_,
    ?_, gen_q_out_reject q2 m1 d hw2 (by omega)⟩
  · rw [hfill, hc0, hn, hn1, range_map_last]
    rfl
  · rw [hw1.is_gen_q_empty_count, if_neg (by omega)]
  · rw [hrc, hdn]
  · rw [hrec, habs, hdn, ← hn, List.take_length]
  · rw [hemp, hdn, hcL, hn1, range_map_last_one]
    rfl

/-- C12 on the scenario of the tests: usable length 5, the records `{10,9}` to `{14,5}`, the
rejected `{15,4}`, starting one slot past `buf` so that the write pointer wraps. -/
theorem gen_q_fill_drain_witness :
    ∃ q1 m1 rs q2,
      fill ring6_second store6
          [test_t 10 9, test_t 11 8, test_t 12 7, test_t 13 6, test_t 14 5]
        = some (List.replicate (ring6_second.len - 1) (0, 0) ++ [(0, 1)], q1, m1) ∧
      gen_q_in q1 m1 (test_t 15 4) = some (-1, q1, m1) ∧ is_gen_q_empty q1 = 0 ∧
      drain q1 m1 [test_t 0 0, test_t 0 0, test_t 0 0, test_t 0 0, test_t 0 0]
        = some (rs, q2) ∧
      rs.map (fun r => r.1) = List.replicate ring6_second.len 0 ∧
      rs.map (fun r => r.2.1)
        = [test_t 10 9, test_t 11 8, test_t 12 7, test_t 13 6, test_t 14 5] ∧
      rs.map (fun r => r.2.2) = List.replicate (ring6_second.len - 1) 0 ++ [1] ∧
      gen_q_out q2 m1 (test_t 0 0) = some (-1, q2, m1, test_t 0 0) :=
  gen_q_fill_drain ring6_second store6 (by decide) (by decide) (by decide) (by decide)
    [test_t 10 9, test_t 11 8, test_t 12 7, test_t 13 6, test_t 14 5]
    [test_t 0 0, test_t 0 0, test_t 0 0, test_t 0 0, test_t 0 0]
    (by decide) (by decide) (by decide) (by decide) (test_t 15 4) (test_t 0 0)

/-- C13: the typed and the generic construction are observationally equivalent. For an
object size and a length in `uint32_t` range, every sequence of enqueue, dequeue, is-empty,
is-full and reset calls, with records of the object size, run through the typed queue of
`DEFINE_TYPE_Q(name, T, N)` and through the generic queue of `MAKE_GEN_Q(name, T, N)`, each
from its initial descriptor over its own store of `N + 1` objects, runs to the end on both
and yields the same return value and the same dequeued record at every step. -/
theorem typed_generic_equivalent (st sg : Int) (sz N : Nat) (hs : 1 ≤ sz)
    (hsz : sz < UINT32_MOD) (hN : N < UINT32_MOD) (mt mg : Storage)
    (hmt : mt.base = st ∧ mt.bytes.length = (N + 1) * sz)
    (hmg : mg.base = sg ∧ mg.bytes.length = (N + 1) * sz)
    (ops : List Op) (hops : ∀ op ∈ ops, op.fits sz) :
    ∃ rs t1 mt1 q1 mg1,
      type_run sz (DEFINE_TYPE_Q st sz N) mt ops = some (rs, t1, mt1) ∧
      run (MAKE_GEN_Q sg sz N) mg ops = some (rs, q1, mg1) := by
  have hwt := DEFINE_TYPE_Q_wf st sz N hs hsz hN
  have hwg := DEFINE_TYPE_Q_wf sg sz N hs hsz hN
  have hbt : Bound (as_gen sz N (DEFINE_TYPE_Q st sz N)) mt := by
    refine ⟨hmt.1, ?_⟩
    show st + (((N + 1) * sz : Nat) : Int) ≤ mt.base + (mt.bytes.length : Int)
    rw [hmt.1, hmt.2]
  have hbg : Bound (as_gen sz N (DEFINE_TYPE_Q sg sz N)) mg := by
    refine ⟨hmg.1, ?_⟩
    show sg + (((N + 1) * sz : Nat) : Int) ≤ mg.base + (mg.bytes.length : Int)
    rw [hmg.1, hmg.2]
  obtain ⟨t1, mt1, hrt⟩ := type_run_refines sz N ops _ mt hwt hbt hops
  obtain ⟨q1, mg1, hrg, _⟩ := run_refines ops _ mg hwg hbg hops
  rw [abs_of_count_zero _ mt (count_of_in_eq_out _ rfl)] at hrt
  rw [abs_of_count_zero _ mg (count_of_in_eq_out _ rfl)] at hrg
  rw [MAKE_GEN_Q_eq sg sz N hsz hN]
  exact ⟨_, t1, mt1, q1, mg1, hrt, hrg⟩

/-- C13 at `N = 2` and two-byte objects, with a rejected enqueue, a reset of a non-empty
queue and a dequeue after it. -/
theorem typed_generic_equivalent_witness :
    ∃ rs t1 mt1 q1 mg1,
      type_run 2 (DEFINE_TYPE_Q 100 2 2) (DEFINE_TYPE_Q_store 100 2 2)
          [Op.enq [1, 2], Op.full, Op.enq [3, 4], Op.full, Op.enq [5, 6], Op.deq [0, 0],
            Op.clear, Op.empty, Op.deq [0, 0], Op.enq [7, 8], Op.deq [0, 0]]
        = some (rs, t1, mt1) ∧
      run (MAKE_GEN_Q 200 2 2) (MAKE_GEN_Q_store 200 2 2)
          [Op.enq [1, 2], Op.full, Op.enq [3, 4], Op.full, Op.enq [5, 6], Op.deq [0, 0],
            Op.clear, Op.empty, Op.deq [0, 0], Op.enq [7, 8], Op.deq [0, 0]]
        = some (rs, q1, mg1) :=
  typed_generic_equivalent 100 200 2 2 (by decide) (by decide) (by decide)
    (DEFINE_TYPE_Q_store 100 2 2) (MAKE_GEN_Q_store 200 2 2) (by decide) (by decide) _
    (by decide)

/-- C14 as stated fails: over a store of 1 byte for objects of 2 bytes `bind_gen_q` returns
usable length 4294967295, not 0, and `is_gen_q_full` is 0 on the descriptor. -/
theorem bind_gen_q_undersized_counterexample :
    1 ≤ 2 ∧ 1 < 2 * 2 ∧
    (bind_gen_q 100 1 2).map (fun q => (gen_q_len q, is_gen_q_empty q, is_gen_q_full q))
      = some (4294967295, 1, 0) := by
  decide

/-- C14, amended: for `obj_size >= 1` and `obj_size <= store_size < 2*obj_size`, `bind_gen_q`
returns a descriptor of usable length 0 on which `is_gen_q_empty` and `is_gen_q_full` are both
non-zero and every `gen_q_in` and every `gen_q_out` returns -1 with descriptor, store and
destination unchanged; every call leaves the descriptor as it is, so every sequence of calls
ends in the same state. -/
theorem bind_gen_q_degenerate (store : Int) (store_size obj_size : Nat) (h1 : 1 ≤ obj_size)
    (h2 : obj_size ≤ store_size) (h3 : store_size < 2 * obj_size)
    (h4 : store_size < UINT32_MOD) :
    ∃ q, bind_gen_q store store_size obj_size = some q ∧ gen_q_len q = 0 ∧
      is_gen_q_empty q ≠ 0 ∧ is_gen_q_full q ≠ 0 ∧
      (∀ (m : Storage) (x : List uint8_t), gen_q_in q m x = some (-1, q, m)) ∧
      (∀ (m : Storage) (dst : List uint8_t), gen_q_out q m dst = some (-1, q, m, dst)) ∧
      (∀ (m : Storage) (ops : List Op), ∃ rs, run q m ops = some (rs, q, m)) := by
  have hlt : store - (obj_size : Int) < store := by omega
  have hend : store + (obj_size : Int) - (obj_size : Int) = store := by omega
  have hin := fun (m : Storage) (x : List uint8_t) =>
    gen_q_in_no_room
      { buf := store, end_ := store + (obj_size : Int), in_ := store, out := store,
        size := obj_size, len := 0 } m x rfl rfl
  have hout := fun (m : Storage) (dst : List uint8_t) =>
    gen_q_out_no_data
      { buf := store, end_ := store + (obj_size : Int), in_ := store, out := store,
        size := obj_size, len := 0 } m dst rfl
  refine ⟨_, bind_gen_q_one_slot store store_size obj_size h1 h2 h3 h4, rfl, ?_, ?_, hin, hout,
    ?_⟩
  · unfold is_gen_q_empty
    dsimp only
    rw [if_pos rfl]; decide
  · unfold is_gen_q_full
    dsimp only
    rw [if_pos hlt, hend, if_pos rfl]; decide
  · intro m ops
    apply run_fixed
    intro op
    cases op with
    | enq x => exact ⟨⟨-1, []⟩, by simp [step, hin]⟩
    | deq dst => exact ⟨⟨-1, dst⟩, by simp [step, hout]⟩
    | empty => exact ⟨_, rfl⟩
    | full => exact ⟨_, rfl⟩
    | clear => exact ⟨_, rfl⟩

/-- C14, amended, over a store of 3 bytes for objects of 2 bytes. -/
theorem bind_gen_q_degenerate_witness :
    ∃ q, bind_gen_q 100 3 2 = some q ∧ gen_q_len q = 0 ∧
      is_gen_q_empty q ≠ 0 ∧ is_gen_q_full q ≠ 0 ∧
      (∀ (m : Storage) (x : List uint8_t), gen_q_in q m x = some (-1, q, m)) ∧
      (∀ (m : Storage) (dst : List uint8_t), gen_q_out q m dst = some (-1, q, m, dst)) ∧
      (∀ (m : Storage) (ops : List Op), ∃ rs, run q m ops = some (rs, q, m)) :=
  bind_gen_q_degenerate 100 3 2 (by decide) (by decide) (by decide) (by decide)

/-- C15: `bind_gen_q` does not validate short storage and its `uint32_t` length wraps. For
every `obj_size >= 1` it returns a descriptor; when `obj_size <= store_size < 2*obj_size` the
descriptor has `len = 0` and `end = buf + obj_size`, and when `store_size < obj_size` it has
`len = 4294967295`, which is `(0 - 1) mod 2^32`, and `end = buf`, so that `gen_q_len` reports
more objects than the store has room for. -/
theorem bind_gen_q_unvalidated (store : Int) (store_size obj_size : Nat) (h1 : 1 ≤ obj_size)
    (h4 : store_size < UINT32_MOD) :
    ∃ q, bind_gen_q store store_size obj_size = some q ∧ q.buf = store ∧
      (obj_size ≤ store_size → store_size < 2 * obj_size →
        q.len = 0 ∧ q.end_ = q.buf + (obj_size : Int)) ∧
      (store_size < obj_size →
        q.len = (0 + UINT32_MOD - 1) % UINT32_MOD ∧ q.len = 4294967295 ∧ q.end_ = q.buf ∧
        gen_q_len q = 4294967295 ∧ store_size < gen_q_len q * obj_size) := by
  by_cases hlt : store_size < obj_size
  · refine ⟨_, bind_gen_q_no_slot store store_size obj_size hlt, rfl, ?_, ?_⟩
    · intro h; omega
    · intro _
      have hM : (0 + UINT32_MOD - 1) % UINT32_MOD = 4294967295 := by decide
      refine ⟨hM.symm, rfl, rfl, rfl, ?_⟩
      show store_size < 4294967295 * obj_size
      omega
  · by_cases h2 : store_size < 2 * obj_size
    · refine ⟨_, bind_gen_q_one_slot store store_size obj_size h1 (by omega) h2 h4, rfl, ?_, ?_⟩
      · intro _ _; exact ⟨rfl, rfl⟩
      · intro h; omega
    · unfold bind_gen_q
      rw [if_neg (by omega)]
      refine ⟨_, rfl, rfl, ?_, ?_⟩
      · intro _ h; omega
      · intro h; omega

/-- C15 over a store of 1 byte for objects of 2 bytes. -/
theorem bind_gen_q_unvalidated_witness :
    ∃ q, bind_gen_q 100 1 2 = some q ∧ q.buf = 100 ∧
      (2 ≤ 1 → 1 < 2 * 2 → q.len = 0 ∧ q.end_ = q.buf + ((2 : Nat) : Int)) ∧
      (1 < 2 →
        q.len = (0 + UINT32_MOD - 1) % UINT32_MOD ∧ q.len = 4294967295 ∧ q.end_ = q.buf ∧
        gen_q_len q = 4294967295 ∧ 1 < gen_q_len q * 2) :=
  bind_gen_q_unvalidated 100 1 2 (by decide) (by decide)

/-- C16: the pointer invariant. The predicate `buf <= in < end`, `buf <= out < end`, `in - buf`
and `out - buf` multiples of `size` holds for the descriptor returned by `bind_gen_q`
(`obj_size >= 1`, `store_size >= 2*obj_size`) and for the one built by `MAKE_GEN_Q`, and in
every state reached from either by a sequence of `gen_q_in`, `gen_q_out`, `gen_q_clear`,
`is_gen_q_empty` and `is_gen_q_full` calls, neither pointer being equal to `end`; and on every
descriptor whose `const` fields are as those constructors leave them (`size >= 1`,
`end = buf + (len+1)*size`) and whose pointers satisfy the predicate, each such call returns,
whether it succeeds or fails, and leaves a descriptor with the same `const` fields that
satisfies the predicate again. -/
theorem gen_q_pointer_invariant (store : Int) (store_size obj_size sizeof_type qlen : Nat)
    (h1 : 1 ≤ obj_size) (h2 : 2 * obj_size ≤ store_size) (h3 : store_size < UINT32_MOD)
    (h4 : 1 ≤ sizeof_type) (h5 : sizeof_type < UINT32_MOD) (h6 : qlen < UINT32_MOD) :
    (∃ q0, bind_gen_q store store_size obj_size = some q0 ∧ PtrInv q0 ∧
      ∀ (m : Storage) (ops : List Op), Bound q0 m → (∀ op ∈ ops, op.fits q0.size) →
        ∃ rs q1 m1, run q0 m ops = some (rs, q1, m1) ∧ PtrInv q1 ∧
          q1.in_ ≠ q1.end_ ∧ q1.out ≠ q1.end_) ∧
    (PtrInv (MAKE_GEN_Q store sizeof_type qlen) ∧
      ∀ (m : Storage) (ops : List Op), Bound (MAKE_GEN_Q store sizeof_type qlen) m →
        (∀ op ∈ ops, op.fits (MAKE_GEN_Q store sizeof_type qlen).size) →
        ∃ rs q1 m1, run (MAKE_GEN_Q store sizeof_type qlen) m ops = some (rs, q1, m1) ∧
          PtrInv q1 ∧ q1.in_ ≠ q1.end_ ∧ q1.out ≠ q1.end_) ∧
    (∀ (q : gen_q_t) (m : Storage) (op : Op), WF q → Bound q m → op.fits q.size →
      ∃ r q1 m1, step q m op = some (r, q1, m1) ∧ same_consts q q1 ∧ WF q1 ∧ Bound q1 m1 ∧
        PtrInv q1 ∧ q1.in_ ≠ q1.end_ ∧ q1.out ≠ q1.end_) := by
  have hreach : ∀ (q0 : gen_q_t), WF q0 → ∀ (m : Storage) (ops : List Op), Bound q0 m →
      (∀ op ∈ ops, op.fits q0.size) →
      ∃ rs q1 m1, run q0 m ops = some (rs, q1, m1) ∧ PtrInv q1 ∧
        q1.in_ ≠ q1.end_ ∧ q1.out ≠ q1.end_ := by
    intro q0 hw0 m ops hb hops
    obtain ⟨q1, m1, hrun, hw1, _⟩ := run_refines ops q0 m hw0 hb hops
    have hp := hw1.ptrInv
    exact ⟨_, q1, m1, hrun, hp, ne_of_lt hp.1.2, ne_of_lt hp.2.1.2⟩
  refine ⟨?_, ?_, ?_⟩
  · obtain ⟨q0, hq0, hw0, _⟩ := bind_gen_q_wf store store_size obj_size h1 h2 h3
    exact ⟨q0, hq0, hw0.ptrInv, hreach q0 hw0⟩
  · have hw : WF (MAKE_GEN_Q store sizeof_type qlen) := by
      rw [MAKE_GEN_Q_eq store sizeof_type qlen h5 h6]
      exact DEFINE_TYPE_Q_wf store sizeof_type qlen h4 h5 h6
    exact ⟨hw.ptrInv, hreach _ hw⟩
  · intro q m op hw hb hop
    obtain ⟨q1, m1, hstep, hw1, hb1, hc1, _, _⟩ := step_refines q m op hw hb hop
    have hp := hw1.ptrInv
    exact ⟨_, q1, m1, hstep, hc1, hw1, hb1, hp, ne_of_lt hp.1.2, ne_of_lt hp.2.1.2⟩

/-- C16 at the store of the test, six records of eight bytes, and at `MAKE_GEN_Q(ted, test_t,
5)`. -/
theorem gen_q_pointer_invariant_witness :
    (∃ q0, bind_gen_q 1000 48 8 = some q0 ∧ PtrInv q0 ∧
      ∀ (m : Storage) (ops : List Op), Bound q0 m → (∀ op ∈ ops, op.fits q0.size) →
        ∃ rs q1 m1, run q0 m ops = some (rs, q1, m1) ∧ PtrInv q1 ∧
          q1.in_ ≠ q1.end_ ∧ q1.out ≠ q1.end_) ∧
    (PtrInv (MAKE_GEN_Q 1000 8 5) ∧
      ∀ (m : Storage) (ops : List Op), Bound (MAKE_GEN_Q 1000 8 5) m →
        (∀ op ∈ ops, op.fits (MAKE_GEN_Q 1000 8 5).size) →
        ∃ rs q1 m1, run (MAKE_GEN_Q 1000 8 5) m ops = some (rs, q1, m1) ∧
          PtrInv q1 ∧ q1.in_ ≠ q1.end_ ∧ q1.out ≠ q1.end_) ∧
    (∀ (q : gen_q_t) (m : Storage) (op : Op), WF q → Bound q m → op.fits q.size →
      ∃ r q1 m1, step q m op = some (r, q1, m1) ∧ same_consts q q1 ∧ WF q1 ∧ Bound q1 m1 ∧
        PtrInv q1 ∧ q1.in_ ≠ q1.end_ ∧ q1.out ≠ q1.end_) :=
  gen_q_pointer_invariant 1000 48 8 8 5 (by decide) (by decide) (by decide) (by decide)
    (by decide) (by decide)

/-- C17: the element count. With `count = ((in - out) / size) mod (len + 1)`, on a well-formed
descriptor of usable length at least 1 bound to its store: `0 <= count <= len`; `gen_q_in`
returns, raising `count` by exactly 1 when it returns 0 and leaving it unchanged otherwise;
`gen_q_out` returns, lowering `count` by exactly 1 when it returns 0 and leaving it unchanged
otherwise; `is_gen_q_empty` is non-zero iff `count = 0`, `is_gen_q_full` is non-zero iff
`count = len`, and the two are never both non-zero. -/
theorem gen_q_count (q : gen_q_t) (m : Storage) (x dst : List uint8_t) (hw : WF q)
    (hb : Bound q m) (hl : 1 ≤ q.len) (hx : x.length = q.size) (hd : dst.length = q.size) :
    ((count q : Int) = ((q.in_ - q.out) / (q.size : Int)) % ((q.len : Int) + 1) ∧
      count q ≤ q.len) ∧
    (∃ rc q1 m1, gen_q_in q m x = some (rc, q1, m1) ∧
      (rc = 0 → count q1 = count q + 1) ∧ (rc ≠ 0 → count q1 = count q)) ∧
    (∃ rc q1 m1 dst1, gen_q_out q m dst = some (rc, q1, m1, dst1) ∧
      (rc = 0 → count q1 + 1 = count q) ∧ (rc ≠ 0 → count q1 = count q)) ∧
    (is_gen_q_empty q ≠ 0 ↔ count q = 0) ∧ (is_gen_q_full q ≠ 0 ↔ count q = q.len) ∧
    ¬ (is_gen_q_empty q ≠ 0 ∧ is_gen_q_full q ≠ 0) := by
  have hemp : is_gen_q_empty q ≠ 0 ↔ count q = 0 := by
    rw [hw.is_gen_q_empty_count]; split <;> simp [*]
  have hfull : is_gen_q_full q ≠ 0 ↔ count q = q.len := by
    rw [hw.is_gen_q_full_count]; split <;> simp [*]
  refine ⟨⟨?_, hw.count_le_len⟩, ?_, ?_, hemp, hfull, ?_⟩
  · unfold count
    exact Int.toNat_of_nonneg (Int.emod_nonneg _ (by omega))
  · by_cases hc : count q = q.len
    · exact ⟨-1, q, m, gen_q_in_reject q m x hw hc, fun h => absurd h (by decide),
        fun _ => rfl⟩
    · have hlt : count q < q.len := by have := hw.count_le_len; omega
      obtain ⟨q1, m1, hin, _, _, _, hc1, _⟩ := gen_q_in_step q m x hw hb hx hlt
      exact ⟨0, q1, m1, hin, fun _ => hc1, fun h => absurd rfl h⟩
  · by_cases hc : count q = 0
    · exact ⟨-1, q, m, dst, gen_q_out_reject q m dst hw hc, fun h => absurd h (by decide),
        fun _ => rfl⟩
    · obtain ⟨q1, r, hout, _, _, _, hc1, _⟩ := gen_q_out_step q m dst hw hb hd (by omega)
      exact ⟨0, q1, m, r, hout, fun _ => hc1, fun h => absurd rfl h⟩
  · rw [hemp, hfull]
    intro h
    omega

/-- C17 at a queue of usable length 2 holding one record. -/
theorem gen_q_count_witness :
    ((count ring3_one : Int)
        = ((ring3_one.in_ - ring3_one.out) / (ring3_one.size : Int))
          % ((ring3_one.len : Int) + 1) ∧
      count ring3_one ≤ ring3_one.len) ∧
    (∃ rc q1 m1, gen_q_in ring3_one store3 [3, 4] = some (rc, q1, m1) ∧
      (rc = 0 → count q1 = count ring3_one + 1) ∧ (rc ≠ 0 → count q1 = count ring3_one)) ∧
    (∃ rc q1 m1 dst1, gen_q_out ring3_one store3 [0, 0] = some (rc, q1, m1, dst1) ∧
      (rc = 0 → count q1 + 1 = count ring3_one) ∧ (rc ≠ 0 → count q1 = count ring3_one)) ∧
    (is_gen_q_empty ring3_one ≠ 0 ↔ count ring3_one = 0) ∧
    (is_gen_q_full ring3_one ≠ 0 ↔ count ring3_one = ring3_one.len) ∧
    ¬ (is_gen_q_empty ring3_one ≠ 0 ∧ is_gen_q_full ring3_one ≠ 0) :=
  gen_q_count ring3_one store3 [3, 4] [0, 0] (by decide) (by decide) (by decide) (by decide)
    (by decide)

/-- C18: the single-writer frame. On every descriptor, store and record: a `gen_q_in` that
returns leaves `out`, `buf`, `end`, `size`, `len` and the base and length of the store as they
were and every byte of the store outside the `size` bytes at the old `in`, and changes nothing
at all when it returns non-zero; a `gen_q_out` that returns leaves `in`, `buf`, `end`, `size`,
`len` and the whole store as they were; `gen_q_clear` leaves `in`, `buf`, `end`, `size`, `len`
as they were and does not touch the store; `is_gen_q_empty` and `is_gen_q_full` leave
descriptor and store as they were, and `gen_q_len` and `gen_q_size` read `len` and `size`. On
a well-formed descriptor bound to its store both `gen_q_in` and `gen_q_out` do return. -/
theorem gen_q_frame (q : gen_q_t) (m : Storage) (x dst : List uint8_t) :
    (∀ rc q1 m1, gen_q_in q m x = some (rc, q1, m1) →
      q1.out = q.out ∧ same_consts q q1 ∧ m1.base = m.base ∧
      m1.bytes.length = m.bytes.length ∧
      (∀ k : Nat, (k < (q.in_ - m.base).toNat ∨ (q.in_ - m.base).toNat + q.size ≤ k) →
        m1.bytes[k]? = m.bytes[k]?) ∧
      (rc ≠ 0 → q1 = q ∧ m1 = m)) ∧
    (∀ rc q1 m1 dst1, gen_q_out q m dst = some (rc, q1, m1, dst1) →
      q1.in_ = q.in_ ∧ same_consts q q1 ∧ m1 = m ∧ (rc ≠ 0 → q1 = q ∧ dst1 = dst)) ∧
    ((gen_q_clear q).in_ = q.in_ ∧ same_consts q (gen_q_clear q) ∧
      step q m Op.clear = some (⟨0, []⟩, gen_q_clear q, m)) ∧
    (step q m Op.empty = some (⟨is_gen_q_empty q, []⟩, q, m) ∧
      step q m Op.full = some (⟨is_gen_q_full q, []⟩, q, m) ∧
      gen_q_len q = q.len ∧ gen_q_size q = q.size) ∧
    (WF q → Bound q m → x.length = q.size → dst.length = q.size →
      (∃ r, gen_q_in q m x = some r) ∧ (∃ r, gen_q_out q m dst = some r)) := by
  refine ⟨fun rc q1 m1 h => gen_q_in_frame q m x rc q1 m1 h,
    fun rc q1 m1 dst1 h => gen_q_out_frame q m dst rc q1 m1 dst1 h,
    ⟨rfl, ⟨rfl, rfl, rfl, rfl⟩, rfl⟩, ⟨rfl, rfl, rfl, rfl⟩, ?_⟩
  intro hw hb hx hd
  constructor
  · by_cases hc : count q = q.len
    · exact ⟨_, gen_q_in_reject q m x hw hc⟩
    · have hlt : count q < q.len := by have := hw.count_le_len; omega
      obtain ⟨q1, m1, hin, _⟩ := gen_q_in_step q m x hw hb hx hlt
      exact ⟨_, hin⟩
  · by_cases hc : count q = 0
    · exact ⟨_, gen_q_out_reject q m dst hw hc⟩
    · obtain ⟨q1, r, hout, _⟩ := gen_q_out_step q m dst hw hb hd (by omega)
      exact ⟨_, hout⟩

/-- C18 at a queue of usable length 2 holding one record: the enqueue writes the two bytes of
the second slot and moves `in`, the dequeue moves `out` only. -/
theorem gen_q_frame_witness :
    (gen_q_in ring3_one store3 [3, 4]
        = some (0, { ring3_one with in_ := 104 }, { store3 with bytes := [0, 0, 3, 4, 0, 0] }) ∧
      gen_q_out ring3_one store3 [9, 9]
        = some (0, { ring3_one with out := 102 }, store3, [0, 0])) ∧
    ((∀ k : Nat, (k < (ring3_one.in_ - store3.base).toNat
          ∨ (ring3_one.in_ - store3.base).toNat + ring3_one.size ≤ k) →
        ([0, 0, 3, 4, 0, 0] : List uint8_t)[k]? = store3.bytes[k]?) ∧
      (gen_q_clear ring3_one).in_ = ring3_one.in_) :=
  ⟨⟨by decide, by decide⟩,
    ((gen_q_frame ring3_one store3 [3, 4] [9, 9]).1 0 { ring3_one with in_ := 104 }
      { store3 with bytes := [0, 0, 3, 4, 0, 0] } (by decide)).2.2.2.2.1,
    (gen_q_frame ring3_one store3 [3, 4] [9, 9]).2.2.1.1⟩

/-- C19: position independence. For a well-formed descriptor and an aligned slot position
`p` in `[buf, end)`, every sequence of `gen_q_in`, `gen_q_out`, `is_gen_q_empty`,
`is_gen_q_full` and `gen_q_clear` calls, with records of `size` bytes, run from the empty state
`in = out = p` and run from the empty state `in = out = buf`, over any contents of the store,
runs to the end on both and yields the same return values and the same dequeued records. -/
theorem gen_q_position_independent (q : gen_q_t) (m m0 : Storage) (p : Int) (hw : WF q)
    (hb : Bound q m) (hb0 : Bound q m0) (hp1 : q.buf ≤ p) (hp2 : p < q.end_)
    (hp3 : (p - q.buf) % (q.size : Int) = 0) (ops : List Op)
    (hops : ∀ op ∈ ops, op.fits q.size) :
    ∃ rs q1 m1 q2 m2,
      run { q with in_ := p, out := p } m ops = some (rs, q1, m1) ∧
      run { q with in_ := q.buf, out := q.buf } m0 ops = some (rs, q2, m2) := by
  have hwp : WF { q with in_ := p, out := p } := hw.at_slot p hp1 hp2 hp3
  have hw0 : WF { q with in_ := q.buf, out := q.buf } := hw.reset_wf
  obtain ⟨q1, m1, hr1, _⟩ := run_refines ops _ m hwp hb hops
  obtain ⟨q2, m2, hr2, _⟩ := run_refines ops _ m0 hw0 hb0 hops
  rw [abs_of_count_zero _ m (count_of_in_eq_out _ rfl)] at hr1
  rw [abs_of_count_zero _ m0 (count_of_in_eq_out _ rfl)] at hr2
  exact ⟨_, q1, m1, q2, m2, hr1, hr2⟩

/-- C19 at a queue of usable length 2 started at its last slot, over a store with other
contents than the one started at `buf`. -/
theorem gen_q_position_independent_witness :
    ∃ rs q1 m1 q2 m2,
      run { ring3_one with in_ := 104, out := 104 } { base := 100, bytes := [9, 9, 9, 9, 9, 9] }
          [Op.enq [1, 2], Op.enq [3, 4], Op.full, Op.enq [5, 6], Op.deq [0, 0], Op.clear,
            Op.empty, Op.enq [7, 8], Op.enq [9, 10], Op.deq [0, 0], Op.deq [0, 0], Op.deq [0, 0]]
        = some (rs, q1, m1) ∧
      run { ring3_one with in_ := ring3_one.buf, out := ring3_one.buf } store3
          [Op.enq [1, 2], Op.enq [3, 4], Op.full, Op.enq [5, 6], Op.deq [0, 0], Op.clear,
            Op.empty, Op.enq [7, 8], Op.enq [9, 10], Op.deq [0, 0], Op.deq [0, 0], Op.deq [0, 0]]
        = some (rs, q2, m2) :=
  gen_q_position_independent ring3_one { base := 100, bytes := [9, 9, 9, 9, 9, 9] } store3 104
    (by decide) (by decide) (by decide) (by decide) (by decide) (by decide) _ (by decide)

/-- C20: copies stay inside the caller's storage. For `obj_size >= 1` and a `uint32_t`
`store_size >= 2*obj_size`, from the descriptor `bind_gen_q` returns over a store of
`store_size` bytes at `store`, every sequence of `gen_q_in`, `gen_q_out`, `gen_q_clear`,
`is_gen_q_empty` and `is_gen_q_full` calls with records of `obj_size` bytes runs to the end
without an out-of-range access, the store keeps its base and length, and in the state reached
the `obj_size` bytes at `in` and the `obj_size` bytes at `out` lie within
`[store, store + store_size)`, so that the next copy of `gen_q_in` and of `gen_q_out` is in
range too. -/
theorem gen_q_copies_in_bounds (store : Int) (store_size obj_size : Nat) (h1 : 1 ≤ obj_size)
    (h2 : 2 * obj_size ≤ store_size) (h3 : store_size < UINT32_MOD) (m : Storage)
    (hm : m.base = store ∧ m.bytes.length = store_size) (ops : List Op)
    (hops : ∀ op ∈ ops, op.fits obj_size) :
    ∃ q0 rs q1 m1, bind_gen_q store store_size obj_size = some q0 ∧
      run q0 m ops = some (rs, q1, m1) ∧
      (m1.base = store ∧ m1.bytes.length = store_size ∧ q1.size = obj_size) ∧
      (store ≤ q1.in_ ∧ q1.in_ + (obj_size : Int) ≤ store + (store_size : Int)) ∧
      (store ≤ q1.out ∧ q1.out + (obj_size : Int) ≤ store + (store_size : Int)) ∧
      (∀ x : List uint8_t, x.length = obj_size → ∃ m2, memcpy_to m1 q1.in_ x q1.size = some m2) ∧
      (∀ d : List uint8_t, d.length = obj_size →
        ∃ d2, memcpy_from m1 d q1.out q1.size = some d2) := by
  obtain ⟨q0, hq0, hw0, hbuf0, hsz0, hend0⟩ :=
    bind_gen_q_wf store store_size obj_size h1 h2 h3
  have hb0 : Bound q0 m := ⟨by rw [hm.1, hbuf0], by rw [hm.1, hm.2]; exact hend0⟩
  obtain ⟨q1, m1, hrun, hw1, hb1, hc1, hl1⟩ :=
    run_refines ops q0 m hw0 hb0 (by rw [hsz0]; exact hops)
  have hsz1 : q1.size = obj_size := by rw [hc1.2.2.1, hsz0]
  have hbase1 : m1.base = store := by rw [hb1.1, hc1.1, hbuf0]
  have hlen1 : m1.bytes.length = store_size := by rw [hl1, hm.2]
  obtain ⟨hi, ho⟩ := hw1.slots_inside m1 hb1
  have hi' := hi
  have ho' := ho
  unfold Storage.inside at hi' ho'
  rw [hbase1, hlen1, hsz1] at hi' ho'
  refine ⟨q0, _, q1, m1, hq0, hrun, ⟨hbase1, hlen1, hsz1⟩, hi', ho', ?_, ?_⟩
  · intro x hx
    unfold memcpy_to
    rw [if_pos ⟨hi, by rw [hsz1, hx]⟩]
    exact ⟨_, rfl⟩
  · intro d hd
    unfold memcpy_from
    rw [if_pos ⟨ho, by rw [hsz1, hd]⟩]
    exact ⟨_, rfl⟩

/-- C20 over a store of 7 bytes for objects of 2 bytes (three slots and a trailing byte),
with a rejected enqueue, wrapping pointers and a clear. -/
theorem gen_q_copies_in_bounds_witness :
    ∃ q0 rs q1 m1, bind_gen_q 100 7 2 = some q0 ∧
      run q0 { base := 100, bytes := [0, 0, 0, 0, 0, 0, 0] }
          [Op.enq [1, 2], Op.enq [3, 4], Op.enq [5, 6], Op.deq [0, 0], Op.enq [7, 8],
            Op.deq [0, 0], Op.clear, Op.enq [9, 10], Op.deq [0, 0], Op.deq [0, 0]]
        = some (rs, q1, m1) ∧
      (m1.base = 100 ∧ m1.bytes.length = 7 ∧ q1.size = 2) ∧
      (100 ≤ q1.in_ ∧ q1.in_ + ((2 : Nat) : Int) ≤ 100 + ((7 : Nat) : Int)) ∧
      (100 ≤ q1.out ∧ q1.out + ((2 : Nat) : Int) ≤ 100 + ((7 : Nat) : Int)) ∧
      (∀ x : List uint8_t, x.length = 2 → ∃ m2, memcpy_to m1 q1.in_ x q1.size = some m2) ∧
      (∀ d : List uint8_t, d.length = 2 → ∃ d2, memcpy_from m1 d q1.out q1.size = some d2) :=
  gen_q_copies_in_bounds 100 7 2 (by decide) (by decide) (by decide)
    { base := 100, bytes := [0, 0, 0, 0, 0, 0, 0] } (by decide) _ (by decide)

end TypeQ
